import Mathlib

/-!
# Winnowing fingerprints (`external/src/winnowing.c`)

A shallow embedding of the winnowing routine of the scanner and a verification
of the properties its specification states.

Conventions of the embedding.

* A byte is a natural number (its unsigned value); a C string is a list of
  bytes, read up to its first zero byte.
* `uint32_t` arithmetic that can leave its range is written with an explicit
  reduction modulo `2 ^ 32` (`u32`).
* The two `malloc`ed buffers are lists of optional values: `none` is a slot
  that has not been written yet.  Every access is checked; an access outside
  the buffer, or a read of a slot never written, is undefined behaviour in C
  and is reported here as a `Fault`.
* `malloc` is taken to succeed. The pointers `gram_ptr` and `window_ptr` are
  incremented only after a checked write at their value, so that they stay
  below the size of their buffer and the increment cannot wrap.
* The caller's arrays `hashes` and `lines` are maps from index to value: their
  capacity is not known to `winnowing`. They are taken to be disjoint from each
  other and from the source.
* The length of the source is a `size_t` that `winnowing` stores in a
  `uint32_t`: the loop visits the first `strlen (src) mod 2 ^ 32` bytes.
* The checksum `calc_crc32c` is declared in `crc32c.h`, which is not part of
  the sources at hand; it is a parameter, together with the layout in memory
  of a `uint32_t` (the routine hashes the four bytes at `&hash`).
-/

namespace Winnowing

/-! ## Machine integers and the platform -/

/-- Conversion of a value to `uint32_t`. -/
def u32 (n : Nat) : Nat := n % 4294967296

/-- The global `uint32_t MAX_UINT32 = 4294967295`. -/
def MAX_UINT32 : Nat := 4294967295

/-- The value, as a `uint32_t`, of `n - 1` where `n` is one of the `uint8_t`
globals `GRAM` and `WINDOW`: the subtraction is done on `int`, so that `0`
gives `-1`, which converts to `4294967295`. -/
def pred_u32 (n : Nat) : Nat := if n = 0 then 4294967295 else n - 1

/-- What `winnowing.c` takes from outside: the checksum `calc_crc32c`
(a function from a byte buffer to a 32-bit value, declared in `crc32c.h`)
and the four bytes found in memory at the address of a `uint32_t`. -/
structure Platform where
  /-- The function `calc_crc32c (data, len)` applied to the `len` bytes at `data`. -/
  calc_crc32c : List Nat → Nat
  /-- The four bytes of a `uint32_t` as they lie in memory. -/
  word_bytes : Nat → List Nat

/-- The result of `calc_crc32c`, a `uint32_t`. -/
def Platform.crc (P : Platform) (data : List Nat) : Nat := u32 (P.calc_crc32c data)

/-- The expression `calc_crc32c((char *)&hash, 4)` of `add_hash`. -/
def Platform.rehash (P : Platform) (hash : Nat) : Nat := P.crc (P.word_bytes hash)

/-! ## Buffers -/

/-- Undefined behaviour of the C program that the embedding detects. -/
inductive Fault where
  | out_of_bounds
  | uninitialised
  deriving DecidableEq, Repr

/-- A `malloc`ed buffer: one optional value per slot. -/
abbrev Buffer := List (Option Nat)

/-- The statement `malloc (n)` for a buffer of `n` slots, none of them written. -/
def malloc (n : Nat) : Buffer := List.replicate n none

/-- The read `buf[i]`. -/
def Buffer.load (buf : Buffer) (i : Nat) : Except Fault Nat :=
  match buf.get? i with
  | none => .error .out_of_bounds
  | some none => .error .uninitialised
  | some (some v) => .ok v

/-- The write `buf[i] = v`. -/
def Buffer.store (buf : Buffer) (i : Nat) (v : Nat) : Except Fault Buffer :=
  if i < buf.length then .ok (buf.set i (some v)) else .error .out_of_bounds

/-- The reads `buf[i], buf[i+1], ...` (`n` of them) made by a callee that is
handed the buffer and a length. -/
def Buffer.load_from (buf : Buffer) (i : Nat) : Nat → Except Fault (List Nat)
  | 0 => .ok []
  | n + 1 =>
    match buf.load i with
    | .error f => .error f
    | .ok v =>
      match buf.load_from (i + 1) n with
      | .error f => .error f
      | .ok vs => .ok (v :: vs)

/-! ## The functions of `winnowing.c` -/

/-- The function `normalize`: lowercase letters and digits are kept, uppercase
letters are lowered, every other byte gives zero. -/
def normalize (byte : Nat) : Nat :=
  if byte < 48 then 0
  else if byte > 122 then 0
  else if byte ≤ 57 then byte
  else if byte ≥ 97 then byte
  else if byte ≥ 65 ∧ byte ≤ 90 then (byte + 32) % 256
  else 0

/-- The iterations `i, i+1, ...` (`n` of them) of the loop
`buf[i] = buf[i + 1]` shared by `shift_window` and `shift_gram`. -/
def shift_from (buf : Buffer) (i : Nat) : Nat → Except Fault Buffer
  | 0 => .ok buf
  | n + 1 =>
    match buf.load (i + 1) with
    | .error f => .error f
    | .ok v =>
      match buf.store i v with
      | .error f => .error f
      | .ok buf1 => shift_from buf1 (i + 1) n

/-- The function `shift_window`: left shift of the window by one slot; the
last slot is set to zero. -/
def shift_window (WINDOW : Nat) (window : Buffer) : Except Fault Buffer :=
  match shift_from window 0 (pred_u32 WINDOW) with
  | .error f => .error f
  | .ok w => if WINDOW = 0 then .error .out_of_bounds else w.store (WINDOW - 1) 0

/-- The function `shift_gram`: left shift of the gram by one byte; the last
byte is set to zero. -/
def shift_gram (GRAM : Nat) (gram : Buffer) : Except Fault Buffer :=
  match shift_from gram 0 (pred_u32 GRAM) with
  | .error f => .error f
  | .ok g => if GRAM = 0 then .error .out_of_bounds else g.store (GRAM - 1) 0

/-- The iterations `h, h+1, ...` (`n` of them) of the loop of `smaller_hash`. -/
def smaller_hash_from (window : Buffer) (h : Nat) (hash : Nat) : Nat → Except Fault Nat
  | 0 => .ok hash
  | n + 1 =>
    match window.load h with
    | .error f => .error f
    | .ok v => smaller_hash_from window (h + 1) (if v < hash then v else hash) n

/-- The function `smaller_hash`: the scan of the window for its smallest entry,
starting from `MAX_UINT32`. -/
def smaller_hash (WINDOW : Nat) (window : Buffer) : Except Fault Nat :=
  smaller_hash_from window 0 MAX_UINT32 WINDOW

/-- The caller's arrays `hashes` and `lines`, and the counter of the records
written so far. -/
structure Records where
  hashes : Nat → Nat
  lines : Nat → Nat
  counter : Nat

/-- The function `add_hash`: unless `hash` equals `last`, the checksum of the
four bytes of `hash` and the line are written at index `counter`, which is then
incremented. The result is the new `last` and the arrays. -/
def add_hash (P : Platform) (hash line : Nat) (out : Records) (last : Nat) : Nat × Records :=
  if hash ≠ last then
    (hash,
      { hashes := Function.update out.hashes out.counter (P.rehash hash)
        lines := Function.update out.lines out.counter line
        counter := u32 (out.counter + 1) })
  else (last, out)

/-- The local variables of `winnowing` that live across iterations (the local
`hash` is assigned and consumed within one iteration), and the caller's
arrays. -/
structure State where
  line : Nat
  last : Nat
  gram : Buffer
  gram_ptr : Nat
  window : Buffer
  window_ptr : Nat
  out : Records

/-- The block `if (window_ptr >= WINDOW) ...` of the loop body, entered with a
full window. The boolean of the result says whether the loop was left by
`break`. -/
def full_window (P : Platform) (WINDOW limit : Nat) (s : State) : Except Fault (Bool × State) :=
  match smaller_hash WINDOW s.window with
  | .error f => .error f
  | .ok hash =>
    let r := add_hash P hash s.line s.out s.last
    if r.2.counter ≥ limit then .ok (true, { s with last := r.1, out := r.2 })
    else
      match shift_window WINDOW s.window with
      | .error f => .error f
      | .ok window =>
        .ok (false, { s with last := r.1, out := r.2, window := window,
                             window_ptr := pred_u32 WINDOW })

/-- The block `if (gram_ptr >= GRAM) ...` of the loop body, entered with a
full gram: its checksum goes into the window, a full window is handled, and
the gram is shifted. -/
def full_gram (P : Platform) (GRAM WINDOW limit : Nat) (s : State) :
    Except Fault (Bool × State) :=
  match s.gram.load_from 0 GRAM with
  | .error f => .error f
  | .ok bytes =>
    match s.window.store s.window_ptr (P.crc bytes) with
    | .error f => .error f
    | .ok window =>
      let s1 := { s with window := window, window_ptr := s.window_ptr + 1 }
      match (if s1.window_ptr ≥ WINDOW then full_window P WINDOW limit s1
             else .ok (false, s1)) with
      | .error f => .error f
      | .ok (true, s2) => .ok (true, s2)
      | .ok (false, s2) =>
        match shift_gram GRAM s2.gram with
        | .error f => .error f
        | .ok gram => .ok (false, { s2 with gram := gram, gram_ptr := pred_u32 GRAM })

/-- One iteration of the loop of `winnowing`, on the byte `c = src[i]`. -/
def step (P : Platform) (GRAM WINDOW limit : Nat) (c : Nat) (s : State) :
    Except Fault (Bool × State) :=
  let s0 := if c = 10 then { s with line := u32 (s.line + 1) } else s
  let byte := normalize c
  if byte = 0 then .ok (false, s0)
  else
    match s0.gram.store s0.gram_ptr byte with
    | .error f => .error f
    | .ok gram =>
      let s1 := { s0 with gram := gram, gram_ptr := s0.gram_ptr + 1 }
      if s1.gram_ptr ≥ GRAM then full_gram P GRAM WINDOW limit s1
      else .ok (false, s1)

/-- The loop `for (i = 0; i < src_len; i++)` over the bytes it visits. -/
def scan (P : Platform) (GRAM WINDOW limit : Nat) : List Nat → State → Except Fault State
  | [], s => .ok s
  | c :: rest, s =>
    match step P GRAM WINDOW limit c s with
    | .error f => .error f
    | .ok (true, s1) => .ok s1
    | .ok (false, s1) => scan P GRAM WINDOW limit rest s1

/-- The library function `strlen`: the number of bytes before the first zero
byte. -/
def strlen (src : List Nat) : Nat := (src.takeWhile (fun b => b ≠ 0)).length

/-- The state of `winnowing` when it enters its loop. -/
def initial (GRAM WINDOW : Nat) (hashes lines : Nat → Nat) : State :=
  { line := 1
    last := 0
    gram := malloc GRAM
    gram_ptr := 0
    window := malloc WINDOW
    window_ptr := 0
    out := { hashes := hashes, lines := lines, counter := 0 } }

/-- The function `winnowing`. `GRAM` and `WINDOW` are the values of the two
globals, `hashes` and `lines` the caller's arrays as they are on entry. The
result holds the arrays on return and the returned counter. The length of the
source is kept in a `uint32_t`. -/
def winnowing (P : Platform) (GRAM WINDOW : Nat) (src : List Nat)
    (hashes lines : Nat → Nat) (limit : Nat) : Except Fault Records :=
  let src_len := u32 (strlen src)
  match scan P GRAM WINDOW limit (src.take src_len) (initial GRAM WINDOW hashes lines) with
  | .error f => .error f
  | .ok s => .ok s.out

/-- The records a run returned, as a list of pairs (value, line); `none` when
the run hit undefined behaviour. -/
def records (r : Except Fault Records) : Option (List (Nat × Nat)) :=
  match r with
  | .error _ => none
  | .ok out => some ((List.range out.counter).map fun i => (out.hashes i, out.lines i))

/-! ## The loop as a pipeline

The loop of `winnowing` is a chain of four stages. Each stage is written here
as a function on the list of the events it receives; an event carries the
value of `line` at the byte that caused it. -/

/-- The scan of `smaller_hash` seen on a list of values. -/
def least_from (acc : Nat) (l : List Nat) : Nat :=
  l.foldl (fun a v => if v < a then v else a) acc

/-- The pairs (symbol, line) of the content bytes of a run of bytes scanned
from the given value of `line`. -/
def sym_events : Nat → List Nat → List (Nat × Nat)
  | _, [] => []
  | line, c :: rest =>
    if normalize c = 0 then sym_events (if c = 10 then u32 (line + 1) else line) rest
    else (normalize c, if c = 10 then u32 (line + 1) else line)
      :: sym_events (if c = 10 then u32 (line + 1) else line) rest

/-- A stage with a buffer of `n` slots: the values received are appended to the
pending ones; each time `n` values are held, `f` of them is released and the
oldest is dropped. -/
def slide (n : Nat) (f : List Nat → Nat) : List Nat → List (Nat × Nat) → List (Nat × Nat)
  | _, [] => []
  | pend, e :: rest =>
    if n ≤ (pend ++ [e.1]).length then
      (f (pend ++ [e.1]), e.2) :: slide n f (pend ++ [e.1]).tail rest
    else slide n f (pend ++ [e.1]) rest

/-- The calls of `add_hash` on the pairs (minimum, line) received, up to the
call after which the counter has reached the limit. -/
def emit (P : Platform) (limit : Nat) : List (Nat × Nat) → Nat → Records → Records
  | [], _, out => out
  | e :: rest, last, out =>
    if (add_hash P e.1 e.2 out last).2.counter ≥ limit then (add_hash P e.1 e.2 out last).2
    else emit P limit rest (add_hash P e.1 e.2 out last).1 (add_hash P e.1 e.2 out last).2

/-- The buffer `buf` of `n` slots holds the values `l` in its first slots, its
pointer `ptr` is behind them, and at least one slot is free. -/
def Pending (n : Nat) (buf : Buffer) (ptr : Nat) (l : List Nat) : Prop :=
  ptr = l.length ∧ l.length < n ∧ ∃ fill, buf = l.map some ++ fill ∧ l.length + fill.length = n

/-- The values a stage with `n` slots releases on the events `E`, when it
starts empty: one per run of `n` consecutive events, with the line of the last
event of the run. -/
def windows_of (n : Nat) (f : List Nat → Nat) (E : List (Nat × Nat)) : List (Nat × Nat) :=
  (List.range (E.length + 1 - n)).map fun j =>
    (f (((E.drop j).take n).map Prod.fst), (E.getD (j + n - 1) (0, 0)).2)

/-- The events that pass the test `hash != last` of `add_hash`, when the first
one is compared with `last`: those whose value differs from the value of the
event before. -/
def dedup_from : Nat → List (Nat × Nat) → List (Nat × Nat)
  | _, [] => []
  | last, e :: rest =>
    if e.1 ≠ last then e :: dedup_from e.1 rest else dedup_from e.1 rest

/-- The arrays after the records of the given events have been written, from
index `counter` on. -/
def append_records (P : Platform) : Records → List (Nat × Nat) → Records
  | out, [] => out
  | out, e :: rest =>
    append_records P
      { hashes := Function.update out.hashes out.counter (P.rehash e.1)
        lines := Function.update out.lines out.counter e.2
        counter := out.counter + 1 } rest

/-! ## The notions of the specification -/

/-- The bytes the loop of `winnowing` visits: those before the first zero byte,
as many as the `uint32_t` length `src_len` says. -/
def visited (src : List Nat) : List Nat := src.take (u32 (strlen src))

/-- The normalized symbol stream of a run of bytes: the bytes that are not
letters or digits are dropped, uppercase letters are lowered. -/
def symbols (bytes : List Nat) : List Nat := (bytes.map normalize).filter (fun b => b ≠ 0)

/-- The hash `h(j)` of the `j`-th gram: the checksum of the symbols
`j, ..., j + G - 1`. -/
def gram_hash (P : Platform) (G : Nat) (syms : List Nat) (j : Nat) : Nat :=
  P.crc ((syms.drop j).take G)

/-- The gram hashes `h(k), ..., h(k + W - 1)` of the `k`-th window. -/
def window_hashes (P : Platform) (G W : Nat) (syms : List Nat) (k : Nat) : List Nat :=
  (List.range W).map fun t => gram_hash P G syms (k + t)

/-- The minimum `m(k)` of the `k`-th window: the least of its gram hashes. -/
def window_min (P : Platform) (G W : Nat) (syms : List Nat) (k : Nat) : Nat :=
  ((window_hashes P G W syms k).min?).getD 0

/-- The number of full windows of a symbol stream. -/
def window_count (G W : Nat) (syms : List Nat) : Nat := syms.length + 1 - G + 1 - W

/-- The windows of a symbol stream whose minimum passes the test of `add_hash`
(window `0` is compared with the initial value `0` of `last`, window `k` with
the minimum of window `k - 1`), as far as the run gets: the run stops after
the window that brings the counter to the limit, and with a limit of zero it
stops after the first window. -/
def producers (P : Platform) (G W limit : Nat) (syms : List Nat) : List Nat :=
  ((List.range (if limit = 0 then min 1 (window_count G W syms) else window_count G W syms)).filter
    (fun k => decide (window_min P G W syms k
      ≠ if k = 0 then 0 else window_min P G W syms (k - 1)))).take (max limit 1)

/-- The value of `line` at the byte that completes window `k`, which is the
byte of the symbol `k + G + W - 2`. -/
def window_line (G W : Nat) (bytes : List Nat) (k : Nat) : Nat :=
  ((sym_events 1 bytes).getD (k + G + W - 2) (0, 0)).2

/-- The pair (minimum, line) that window `k` hands to `add_hash`. -/
def window_event (P : Platform) (G W : Nat) (bytes : List Nat) (k : Nat) : Nat × Nat :=
  (window_min P G W (symbols bytes) k, window_line G W bytes k)

/-! ## A concrete platform, and notions of single claims -/

/-- One bit of the reflected division by the Castagnoli polynomial. -/
def crc32c_bit (crc : Nat) : Nat :=
  if crc % 2 = 1 then (crc / 2) ^^^ 0x82F63B78 else crc / 2

/-- The eight bit steps that take in one byte. -/
def crc32c_byte (crc b : Nat) : Nat :=
  crc32c_bit (crc32c_bit (crc32c_bit (crc32c_bit (crc32c_bit (crc32c_bit (crc32c_bit
    (crc32c_bit (crc ^^^ b))))))))

/-- Modelled from the spec: the checksum primitive `calc_crc32c`, whose source
(`crc32c.h`, `crc32c.c`) is not at hand. The specification names it CRC-32C
with the Castagnoli polynomial; this is the standard one (reflected, initial
value and final complement `0xFFFFFFFF`, check value `0xE3069283`). -/
def crc32c (data : List Nat) : Nat := (data.foldl crc32c_byte 0xFFFFFFFF) ^^^ 0xFFFFFFFF

/-- The platform with the standard CRC-32C and a `uint32_t` laid out least
significant byte first. -/
def standard : Platform :=
  { calc_crc32c := crc32c
    word_bytes := fun w => [w % 256, w / 256 % 256, w / 65536 % 256, w / 16777216 % 256] }

/-- The undefined behaviour a run hit, if any. -/
def fault (r : Except Fault Records) : Option Fault :=
  match r with
  | .error f => some f
  | .ok _ => none

/-- The lowercase form of an ASCII uppercase letter; any other byte is kept. -/
def to_lower (b : Nat) : Nat := if 65 ≤ b ∧ b ≤ 90 then b + 32 else b

/-- The relation `Thinned s1 s`: the bytes `s1` are the bytes `s` with some
bytes that are neither letters nor digits deleted. -/
inductive Thinned : List Nat → List Nat → Prop where
  | nil : Thinned [] []
  | keep (c : Nat) {s1 s : List Nat} : Thinned s1 s → Thinned (c :: s1) (c :: s)
  | drop (c : Nat) {s1 s : List Nat} : normalize c = 0 → Thinned s1 s → Thinned s1 (c :: s)

/-- A source of 93 lowercase letters and digits, `aaaaaaaaaaaaaaaaaaaaaa45ftaefi`
followed by 63 times `a`: with the sizes 30 and 64 it has one window, and the
CRC-32C of its first gram is zero. -/
def zero_gram_source : List Nat :=
  [97, 97, 97, 97, 97, 97, 97, 97, 97, 97, 97, 97, 97, 97, 97, 97, 97, 97, 97, 97, 97, 97, 52,
   53, 102, 116, 97, 101, 102, 105, 97, 97, 97, 97, 97, 97, 97, 97, 97, 97, 97, 97, 97, 97,
   97, 97, 97, 97, 97, 97, 97, 97, 97, 97, 97, 97, 97, 97, 97, 97, 97, 97, 97, 97, 97, 97, 97,
   97, 97, 97, 97, 97, 97, 97, 97, 97, 97, 97, 97, 97, 97, 97, 97, 97, 97, 97, 97, 97, 97, 97,
   97, 97, 97]

/-! ## The states of a run -/

/-- The states in which the iterations of the loop of `winnowing` start, one
per iteration that is run, in order: the loop is left after an iteration that
ends in `break` (or in undefined behaviour), and after the last byte. -/
def starts (P : Platform) (GRAM WINDOW limit : Nat) : List Nat → State → List State
  | [], _ => []
  | c :: rest, s =>
    s :: (match step P GRAM WINDOW limit c s with
      | .error _ => []
      | .ok (true, _) => []
      | .ok (false, s1) => starts P GRAM WINDOW limit rest s1)

/-- The arrays `b` are the arrays `a` after one record has been written: the
counter is one more, and no slot but the slot `a.counter` differs. -/
def Wrote (a b : Records) : Prop :=
  b.counter = a.counter + 1
    ∧ ∀ j, j ≠ a.counter → b.hashes j = a.hashes j ∧ b.lines j = a.lines j

/-- The arrays `b` come after the arrays `a` in a run: the counter has not gone
down, the slots below the counter of `a` are as in `a`, and the slots from the
counter of `b` on are as in `a`. -/
def Extends (a b : Records) : Prop :=
  a.counter ≤ b.counter
    ∧ (∀ i, i < a.counter → b.hashes i = a.hashes i ∧ b.lines i = a.lines i)
    ∧ (∀ j, b.counter ≤ j → b.hashes j = a.hashes j ∧ b.lines j = a.lines j)

set_option maxRecDepth 1000000

/-! ## Buffer lemmas -/

theorem load_append (pre : Buffer) (v : Nat) (post : Buffer) :
    Buffer.load (pre ++ some v :: post) pre.length = .ok v := by
  have h : (pre ++ some v :: post).get? pre.length = some (some v) := by
    rw [List.get?_eq_getElem?, List.getElem?_append_right (Nat.le_refl _)]
    simp
  simp only [Buffer.load, h]

theorem store_append (pre : Buffer) (x : Option Nat) (post : Buffer) (v : Nat) :
    Buffer.store (pre ++ x :: post) pre.length v = .ok (pre ++ some v :: post) := by
  simp [Buffer.store]

theorem load_from_append (l : List Nat) : ∀ (pre post : Buffer),
    Buffer.load_from (pre ++ (l.map some ++ post)) pre.length l.length = .ok l := by
  induction l with
  | nil => intro pre post; rfl
  | cons x l ih =>
    intro pre post
    have h := ih (pre ++ [some x]) post
    simp only [List.append_assoc, List.singleton_append, List.length_append,
      List.length_singleton] at h
    simp only [List.map_cons, List.cons_append, List.length_cons, Buffer.load_from,
      load_append, h]

theorem shift_from_append (l : List Nat) : ∀ (pre : Buffer) (x : Option Nat),
    ∃ y, shift_from (pre ++ x :: l.map some) pre.length l.length
      = .ok (pre ++ (l.map some ++ [y])) := by
  induction l with
  | nil => intro pre x; exact ⟨x, rfl⟩
  | cons v l ih =>
    intro pre x
    obtain ⟨y, hy⟩ := ih (pre ++ [some v]) (some v)
    refine ⟨y, ?_⟩
    simp only [List.append_assoc, List.singleton_append, List.length_append,
      List.length_singleton] at hy
    have h1 : Buffer.load (pre ++ x :: List.map some (v :: l)) (pre.length + 1) = .ok v := by
      have := load_append (pre ++ [x]) v (l.map some)
      simpa using this
    have h2 : Buffer.store (pre ++ x :: List.map some (v :: l)) pre.length v
        = .ok (pre ++ some v :: some v :: l.map some) := by
      simpa using store_append pre x (some v :: l.map some) v
    simp only [List.map_cons] at h1 h2
    simp only [List.length_cons, shift_from, h1, h2, hy, List.map_cons, List.cons_append]

theorem smaller_hash_from_append (l : List Nat) : ∀ (pre post : Buffer) (acc : Nat),
    smaller_hash_from (pre ++ (l.map some ++ post)) pre.length acc l.length
      = .ok (least_from acc l) := by
  induction l with
  | nil => intro pre post acc; rfl
  | cons x l ih =>
    intro pre post acc
    have h := ih (pre ++ [some x]) post (if x < acc then x else acc)
    simp only [List.append_assoc, List.singleton_append, List.length_append,
      List.length_singleton] at h
    simp only [List.map_cons, List.cons_append, List.length_cons, smaller_hash_from,
      load_append, h, least_from, List.foldl_cons]

theorem pending_malloc (n : Nat) (hn : 1 ≤ n) : Pending n (malloc n) 0 [] :=
  ⟨rfl, hn, List.replicate n none, rfl, by simp⟩

theorem pending_store {n : Nat} {buf : Buffer} {ptr : Nat} {l : List Nat}
    (h : Pending n buf ptr l) (v : Nat) :
    ∃ fill, buf.store ptr v = .ok ((l ++ [v]).map some ++ fill)
      ∧ (l ++ [v]).length + fill.length = n := by
  obtain ⟨hp, hlt, fill, hb, hlen⟩ := h
  cases fill with
  | nil => simp at hlen; omega
  | cons x fill =>
    refine ⟨fill, ?_, ?_⟩
    · have := store_append (l.map some) x fill v
      simp only [List.length_map] at this
      rw [hb, hp, this]; simp
    · simp at hlen ⊢; omega

theorem pending_store_lt {n : Nat} {buf : Buffer} {ptr : Nat} {l : List Nat}
    (h : Pending n buf ptr l) (v : Nat) (hlt : ¬ n ≤ (l ++ [v]).length) :
    ∃ buf1, buf.store ptr v = .ok buf1 ∧ Pending n buf1 (ptr + 1) (l ++ [v]) := by
  obtain ⟨fill, hs, hlen⟩ := pending_store h v
  refine ⟨_, hs, ?_, by omega, fill, rfl, hlen⟩
  rw [h.1]; simp

theorem pending_store_full {n : Nat} {buf : Buffer} {ptr : Nat} {l : List Nat}
    (h : Pending n buf ptr l) (v : Nat) (hge : n ≤ (l ++ [v]).length) :
    buf.store ptr v = .ok ((l ++ [v]).map some) ∧ (l ++ [v]).length = n := by
  obtain ⟨fill, hs, hlen⟩ := pending_store h v
  have h2 := h.2.1
  simp only [List.length_append, List.length_singleton] at hlen hge ⊢
  have : fill = [] := List.eq_nil_of_length_eq_zero (by omega)
  subst this
  exact ⟨by simpa using hs, by omega⟩

theorem load_from_full (l : List Nat) : Buffer.load_from (l.map some) 0 l.length = .ok l := by
  simpa using load_from_append l [] []

theorem smaller_hash_full (l : List Nat) :
    smaller_hash l.length (l.map some) = .ok (least_from MAX_UINT32 l) := by
  simpa [smaller_hash] using smaller_hash_from_append l [] [] MAX_UINT32

theorem shift_gram_full (n : Nat) (l : List Nat) (hl : l.length = n) (hn : 1 ≤ n) :
    ∃ buf, shift_gram n (l.map some) = .ok buf ∧ Pending n buf (pred_u32 n) l.tail := by
  cases l with
  | nil => simp at hl; omega
  | cons x t =>
    simp only [List.length_cons] at hl
    obtain ⟨y, hy⟩ := shift_from_append t [] (some x)
    have hp : pred_u32 n = t.length := by
      unfold pred_u32; rw [if_neg (by omega)]; omega
    have hs := store_append (t.map some) y [] 0
    simp only [List.length_map] at hs
    have hn0 : n ≠ 0 := by omega
    have hn1 : n - 1 = t.length := by omega
    refine ⟨t.map some ++ [some 0], ?_, ?_⟩
    · simp only [List.nil_append, List.length_nil] at hy
      simp only [shift_gram, hp, List.map_cons, hy, hn0, if_false, hn1, hs]
    · exact ⟨hp, by simp; omega, [some 0], rfl, by simp; omega⟩

theorem shift_window_full (n : Nat) (l : List Nat) (hl : l.length = n) (hn : 1 ≤ n) :
    ∃ buf, shift_window n (l.map some) = .ok buf ∧ Pending n buf (pred_u32 n) l.tail :=
  shift_gram_full n l hl hn

/-! ## The loop computes the pipeline -/

theorem full_window_ok (P : Platform) (W limit : Nat) (s : State) (l : List Nat)
    (hl : l.length = W) (hW : 1 ≤ W) (hw : s.window = l.map some) :
    ∃ brk s1, full_window P W limit s = .ok (brk, s1)
      ∧ s1.line = s.line ∧ s1.gram = s.gram ∧ s1.gram_ptr = s.gram_ptr
      ∧ s1.last = (add_hash P (least_from MAX_UINT32 l) s.line s.out s.last).1
      ∧ s1.out = (add_hash P (least_from MAX_UINT32 l) s.line s.out s.last).2
      ∧ (brk = true ↔ limit ≤ s1.out.counter)
      ∧ (brk = false → Pending W s1.window s1.window_ptr l.tail) := by
  have hm : smaller_hash W s.window = .ok (least_from MAX_UINT32 l) := by
    rw [hw, ← hl]; exact smaller_hash_full l
  obtain ⟨buf, hbuf, hpend⟩ := shift_window_full W l hl hW
  rw [← hw] at hbuf
  by_cases hc : limit ≤ (add_hash P (least_from MAX_UINT32 l) s.line s.out s.last).2.counter
  · refine ⟨true, { s with
        last := (add_hash P (least_from MAX_UINT32 l) s.line s.out s.last).1
        out := (add_hash P (least_from MAX_UINT32 l) s.line s.out s.last).2 }, ?_, ?_⟩
    · simp only [full_window, hm, ge_iff_le, hc, if_true]
    · simp [hc]
  · refine ⟨false, { s with
        last := (add_hash P (least_from MAX_UINT32 l) s.line s.out s.last).1
        out := (add_hash P (least_from MAX_UINT32 l) s.line s.out s.last).2
        window := buf
        window_ptr := pred_u32 W }, ?_, ?_⟩
    · simp only [full_window, hm, ge_iff_le, hc, if_false, hbuf]
    · simp [hc, hpend]

theorem full_gram_ok (P : Platform) (G W limit : Nat) (s : State) (l w : List Nat)
    (hl : l.length = G) (hG : 1 ≤ G) (hW : 1 ≤ W) (hg : s.gram = l.map some)
    (hw : Pending W s.window s.window_ptr w) :
    ∃ brk s1, full_gram P G W limit s = .ok (brk, s1) ∧
      if W ≤ (w ++ [P.crc l]).length then
        s1.out = (add_hash P (least_from MAX_UINT32 (w ++ [P.crc l])) s.line s.out s.last).2
        ∧ (brk = true ↔ limit ≤ s1.out.counter)
        ∧ (brk = false → s1.line = s.line
            ∧ s1.last = (add_hash P (least_from MAX_UINT32 (w ++ [P.crc l]))
                s.line s.out s.last).1
            ∧ Pending G s1.gram s1.gram_ptr l.tail
            ∧ Pending W s1.window s1.window_ptr (w ++ [P.crc l]).tail)
      else
        brk = false ∧ s1.line = s.line ∧ s1.last = s.last ∧ s1.out = s.out
          ∧ Pending G s1.gram s1.gram_ptr l.tail
          ∧ Pending W s1.window s1.window_ptr (w ++ [P.crc l]) := by
  have hload : s.gram.load_from 0 G = .ok l := by
    rw [hg, ← hl]; exact load_from_full l
  obtain ⟨gbuf, hgbuf, hgpend⟩ := shift_gram_full G l hl hG
  rw [← hg] at hgbuf
  by_cases hfull : W ≤ (w ++ [P.crc l]).length
  · obtain ⟨hst, hlen⟩ := pending_store_full hw (P.crc l) hfull
    obtain ⟨brk, s1, hfw, h1, h2, h3, h4, h5, h6, h7⟩ :=
      full_window_ok P W limit
        { s with window := (w ++ [P.crc l]).map some, window_ptr := s.window_ptr + 1 }
        (w ++ [P.crc l]) hlen hW rfl
    have hptr : W ≤ s.window_ptr + 1 := by
      rw [hw.1]; simpa using hfull
    cases brk with
    | true =>
      refine ⟨true, s1, ?_, ?_⟩
      · simp only [full_gram, hload, hst, ge_iff_le, hptr, if_true, hfw]
      · rw [if_pos hfull]
        exact ⟨h5, h6, by simp⟩
    | false =>
      rw [← h2] at hgbuf
      refine ⟨false, { s1 with gram := gbuf, gram_ptr := pred_u32 G }, ?_, ?_⟩
      · simp only [full_gram, hload, hst, ge_iff_le, hptr, if_true, hfw, hgbuf]
      · rw [if_pos hfull]
        exact ⟨h5, h6, fun _ => ⟨h1, h4, hgpend, h7 rfl⟩⟩
  · obtain ⟨wbuf, hst, hwpend⟩ := pending_store_lt hw (P.crc l) hfull
    have hptr : ¬ W ≤ s.window_ptr + 1 := by
      rw [hw.1]; simpa using hfull
    refine ⟨false, { s with
        window := wbuf
        window_ptr := s.window_ptr + 1
        gram := gbuf
        gram_ptr := pred_u32 G }, ?_, ?_⟩
    · simp only [full_gram, hload, hst, ge_iff_le, hptr, if_false, hgbuf]
    · rw [if_neg hfull]
      exact ⟨rfl, rfl, rfl, rfl, hgpend, hwpend⟩

theorem step_ok (P : Platform) (G W limit : Nat) (hG : 1 ≤ G) (hW : 1 ≤ W) (c : Nat)
    (s : State) (g w : List Nat) (hg : Pending G s.gram s.gram_ptr g)
    (hw : Pending W s.window s.window_ptr w) (line1 : Nat)
    (hline : line1 = if c = 10 then u32 (s.line + 1) else s.line) :
    ∃ brk s1, step P G W limit c s = .ok (brk, s1) ∧
      if normalize c = 0 then
        brk = false ∧ s1.line = line1 ∧ s1.last = s.last ∧ s1.out = s.out
          ∧ Pending G s1.gram s1.gram_ptr g ∧ Pending W s1.window s1.window_ptr w
      else if G ≤ (g ++ [normalize c]).length then
        if W ≤ (w ++ [P.crc (g ++ [normalize c])]).length then
          s1.out = (add_hash P (least_from MAX_UINT32 (w ++ [P.crc (g ++ [normalize c])]))
              line1 s.out s.last).2
          ∧ (brk = true ↔ limit ≤ s1.out.counter)
          ∧ (brk = false → s1.line = line1
              ∧ s1.last = (add_hash P (least_from MAX_UINT32 (w ++ [P.crc (g ++ [normalize c])]))
                  line1 s.out s.last).1
              ∧ Pending G s1.gram s1.gram_ptr (g ++ [normalize c]).tail
              ∧ Pending W s1.window s1.window_ptr (w ++ [P.crc (g ++ [normalize c])]).tail)
        else
          brk = false ∧ s1.line = line1 ∧ s1.last = s.last ∧ s1.out = s.out
            ∧ Pending G s1.gram s1.gram_ptr (g ++ [normalize c]).tail
            ∧ Pending W s1.window s1.window_ptr (w ++ [P.crc (g ++ [normalize c])])
      else
        brk = false ∧ s1.line = line1 ∧ s1.last = s.last ∧ s1.out = s.out
          ∧ Pending G s1.gram s1.gram_ptr (g ++ [normalize c])
          ∧ Pending W s1.window s1.window_ptr w := by
  obtain ⟨s0, hs0, h0line, h0last, h0out, h0gram, h0gptr, h0win, h0wptr⟩ :
      ∃ s0 : State, s0 = (if c = 10 then { s with line := u32 (s.line + 1) } else s)
        ∧ s0.line = line1 ∧ s0.last = s.last ∧ s0.out = s.out ∧ s0.gram = s.gram
        ∧ s0.gram_ptr = s.gram_ptr ∧ s0.window = s.window ∧ s0.window_ptr = s.window_ptr := by
    refine ⟨_, rfl, ?_⟩
    subst hline
    by_cases h10 : c = 10 <;> simp [h10]
  rw [← h0gram, ← h0gptr] at hg
  rw [← h0win, ← h0wptr] at hw
  rw [← h0last, ← h0out]
  have hstep : step P G W limit c s =
      if normalize c = 0 then .ok (false, s0)
      else
        match s0.gram.store s0.gram_ptr (normalize c) with
        | .error f => .error f
        | .ok gram =>
          if { s0 with gram := gram, gram_ptr := s0.gram_ptr + 1 }.gram_ptr ≥ G then
            full_gram P G W limit { s0 with gram := gram, gram_ptr := s0.gram_ptr + 1 }
          else .ok (false, { s0 with gram := gram, gram_ptr := s0.gram_ptr + 1 }) := by
    rw [hs0]; rfl
  rw [hstep]
  clear hstep hs0
  by_cases hz : normalize c = 0
  · refine ⟨false, s0, by rw [if_pos hz], ?_⟩
    rw [if_pos hz]
    exact ⟨rfl, h0line, rfl, rfl, hg, hw⟩
  · simp only [if_neg hz]
    by_cases hfull : G ≤ (g ++ [normalize c]).length
    · obtain ⟨hst, hlen⟩ := pending_store_full hg (normalize c) hfull
      have hptr : G ≤ s0.gram_ptr + 1 := by
        rw [hg.1]; simpa using hfull
      obtain ⟨brk, s1, hfg, hres⟩ := full_gram_ok P G W limit
        { s0 with gram := (g ++ [normalize c]).map some, gram_ptr := s0.gram_ptr + 1 }
        (g ++ [normalize c]) w hlen hG hW rfl hw
      refine ⟨brk, s1, ?_, ?_⟩
      · simp only [hst, ge_iff_le, hptr, if_true, hfg]
      · rw [if_pos hfull]
        simpa only [h0line] using hres
    · obtain ⟨gbuf, hst, hgpend⟩ := pending_store_lt hg (normalize c) hfull
      have hptr : ¬ G ≤ s0.gram_ptr + 1 := by
        rw [hg.1]; simpa using hfull
      refine ⟨false, { s0 with gram := gbuf, gram_ptr := s0.gram_ptr + 1 }, ?_, ?_⟩
      · simp only [hst, ge_iff_le, hptr, if_false]
      · rw [if_neg hfull]
        exact ⟨rfl, h0line, rfl, rfl, hgpend, hw⟩

theorem scan_refines (P : Platform) (G W limit : Nat) (hG : 1 ≤ G) (hW : 1 ≤ W)
    (bytes : List Nat) : ∀ (s : State) (g w : List Nat),
    Pending G s.gram s.gram_ptr g → Pending W s.window s.window_ptr w →
    ∃ s1, scan P G W limit bytes s = .ok s1
      ∧ s1.out = emit P limit
          (slide W (least_from MAX_UINT32) w (slide G P.crc g (sym_events s.line bytes)))
          s.last s.out := by
  induction bytes with
  | nil => intro s g w _ _; exact ⟨s, rfl, rfl⟩
  | cons c rest ih =>
    intro s g w hg hw
    obtain ⟨brk, s1, hstep, hres⟩ := step_ok P G W limit hG hW c s g w hg hw _ rfl
    by_cases hz : normalize c = 0
    · rw [if_pos hz] at hres
      obtain ⟨hb, hline, hlast, hout, hg1, hw1⟩ := hres
      subst hb
      obtain ⟨s2, hscan, hout2⟩ := ih s1 g w hg1 hw1
      refine ⟨s2, ?_, ?_⟩
      · simp only [scan, hstep, hscan]
      · rw [hout2, hline, hlast, hout]
        simp only [sym_events, hz, if_true]
    · rw [if_neg hz] at hres
      by_cases hfull : G ≤ (g ++ [normalize c]).length
      · rw [if_pos hfull] at hres
        by_cases hwfull : W ≤ (w ++ [P.crc (g ++ [normalize c])]).length
        · rw [if_pos hwfull] at hres
          obtain ⟨hout, hbrk, hcont⟩ := hres
          cases brk with
          | true =>
            refine ⟨s1, ?_, ?_⟩
            · simp only [scan, hstep]
            · have hlim := hbrk.1 rfl
              rw [hout] at hlim
              rw [hout]
              simp only [sym_events, hz, if_false, slide, hfull, if_true, hwfull, emit,
                ge_iff_le, hlim]
          | false =>
            obtain ⟨hline, hlast, hg1, hw1⟩ := hcont rfl
            obtain ⟨s2, hscan, hout2⟩ := ih s1 _ _ hg1 hw1
            have hlim : ¬ limit ≤ s1.out.counter := fun h => by
              have := hbrk.2 h; exact Bool.noConfusion this
            rw [hout] at hlim
            refine ⟨s2, ?_, ?_⟩
            · simp only [scan, hstep, hscan]
            · rw [hout2, hline, hlast, hout]
              simp only [sym_events, hz, if_false, slide, hfull, if_true, hwfull, emit,
                ge_iff_le, hlim]
        · rw [if_neg hwfull] at hres
          obtain ⟨hb, hline, hlast, hout, hg1, hw1⟩ := hres
          subst hb
          obtain ⟨s2, hscan, hout2⟩ := ih s1 _ _ hg1 hw1
          refine ⟨s2, ?_, ?_⟩
          · simp only [scan, hstep, hscan]
          · rw [hout2, hline, hlast, hout]
            simp only [sym_events, hz, if_false, slide, hfull, if_true, hwfull]
      · rw [if_neg hfull] at hres
        obtain ⟨hb, hline, hlast, hout, hg1, hw1⟩ := hres
        subst hb
        obtain ⟨s2, hscan, hout2⟩ := ih s1 _ _ hg1 hw1
        refine ⟨s2, ?_, ?_⟩
        · simp only [scan, hstep, hscan]
        · rw [hout2, hline, hlast, hout]
          simp only [sym_events, hz, if_false, slide, hfull]

theorem winnowing_eq_emit (P : Platform) (G W : Nat) (src : List Nat)
    (hashes lines : Nat → Nat) (limit : Nat) (hG : 1 ≤ G) (hW : 1 ≤ W) :
    winnowing P G W src hashes lines limit = .ok (emit P limit
      (slide W (least_from MAX_UINT32) [] (slide G P.crc []
        (sym_events 1 (src.take (u32 (strlen src))))))
      0 { hashes := hashes, lines := lines, counter := 0 }) := by
  obtain ⟨s1, hscan, hout⟩ := scan_refines P G W limit hG hW (src.take (u32 (strlen src)))
    (initial G W hashes lines) [] [] (pending_malloc G hG) (pending_malloc W hW)
  simp only [winnowing, hscan, hout]
  rfl

/-! ## The stages in closed form -/

theorem windows_of_short (n : Nat) (f : List Nat → Nat) (E : List (Nat × Nat))
    (h : E.length < n) : windows_of n f E = [] := by
  have : E.length + 1 - n = 0 := by omega
  simp [windows_of, this]

theorem windows_of_cons (n : Nat) (f : List Nat → Nat) (x : Nat × Nat) (L : List (Nat × Nat))
    (hn : 1 ≤ n) (h : n ≤ L.length + 1) :
    windows_of n f (x :: L)
      = (f (((x :: L).take n).map Prod.fst), ((x :: L).getD (n - 1) (0, 0)).2)
        :: windows_of n f L := by
  have h1 : (x :: L).length + 1 - n = (L.length + 1 - n) + 1 := by
    simp only [List.length_cons]; omega
  unfold windows_of
  rw [h1, List.range_succ_eq_map, List.map_cons, List.map_map]
  congr 1
  · simp
  · apply List.map_congr_left
    intro j _
    have h2 : j + 1 + n - 1 = (j + n - 1) + 1 := by omega
    simp only [Function.comp, Nat.succ_eq_add_one, List.drop_succ_cons, h2,
      List.getD_cons_succ]

theorem slide_eq (n : Nat) (f : List Nat → Nat) (hn : 1 ≤ n) (E : List (Nat × Nat)) :
    ∀ pend : List (Nat × Nat), pend.length < n →
      slide n f (pend.map Prod.fst) E = windows_of n f (pend ++ E) := by
  induction E with
  | nil =>
    intro pend hp
    rw [List.append_nil, windows_of_short n f pend hp]
    rfl
  | cons e E ih =>
    intro pend hp
    have hmap : pend.map Prod.fst ++ [e.1] = (pend ++ [e]).map Prod.fst := by simp
    have hsplit : pend ++ e :: E = (pend ++ [e]) ++ E := by simp
    unfold slide
    rw [hmap, hsplit]
    by_cases hfull : n ≤ ((pend ++ [e]).map Prod.fst).length
    · rw [if_pos hfull]
      have hlen : (pend ++ [e]).length = n := by
        simp only [List.length_map, List.length_append, List.length_singleton] at hfull ⊢
        omega
      have hpl : pend.length + 1 = n := by simpa using hlen
      rw [← List.map_tail, ih (pend ++ [e]).tail (by rw [List.length_tail]; omega)]
      cases hpe : pend ++ [e] with
      | nil => simp at hpe
      | cons x t =>
        rw [hpe] at hlen
        have hE : (x :: t ++ E) = x :: (t ++ E) := rfl
        rw [hE, windows_of_cons n f x (t ++ E) hn
          (by simp only [List.length_cons, List.length_append] at hlen ⊢; omega)]
        have htake : (x :: (t ++ E)).take n = x :: t := by
          rw [← hE, List.take_append_of_le_length (by omega), List.take_of_length_le (by omega)]
        have hget : (x :: (t ++ E)).getD (n - 1) (0, 0) = e := by
          rw [← hE, ← hpe, List.getD_eq_getElem?_getD, List.append_assoc,
            List.getElem?_append_right (by omega)]
          have : n - 1 - pend.length = 0 := by omega
          simp [this]
        rw [htake, hget]
        rfl
    · rw [if_neg hfull]
      rw [ih (pend ++ [e]) (by
        simp only [List.length_map, List.length_append, List.length_singleton] at hfull ⊢
        omega)]

theorem u32_of_lt {n : Nat} (h : n < 4294967296) : u32 n = n := Nat.mod_eq_of_lt h

theorem add_hash_fst (P : Platform) (hash line : Nat) (out : Records) (last : Nat) :
    (add_hash P hash line out last).1 = hash := by
  unfold add_hash
  by_cases h : hash = last
  · simp [h]
  · simp [h]

theorem add_hash_snd (P : Platform) (hash line : Nat) (out : Records) (last : Nat)
    (hc : out.counter + 1 < 4294967296) :
    (add_hash P hash line out last).2
      = append_records P out (if hash ≠ last then [(hash, line)] else []) := by
  unfold add_hash
  by_cases h : hash = last
  · simp [h, append_records]
  · simp [h, append_records, u32_of_lt hc]

theorem emit_eq (P : Platform) (limit : Nat) (hlimit : limit < 4294967296)
    (M : List (Nat × Nat)) : ∀ (last : Nat) (out : Records), out.counter < limit →
      emit P limit M last out
        = append_records P out ((dedup_from last M).take (limit - out.counter)) := by
  induction M with
  | nil => intro last out _; simp [emit, dedup_from, append_records]
  | cons e rest ih =>
    intro last out hc
    unfold emit
    rw [add_hash_fst, add_hash_snd P e.1 e.2 out last (by omega)]
    by_cases h : e.1 = last
    · have hh : ¬ (e.1 ≠ last) := fun hne => hne h
      simp only [hh, if_false, append_records, dedup_from, ge_iff_le]
      rw [if_neg (by omega)]
      exact ih e.1 out hc
    · have hh : e.1 ≠ last := h
      obtain ⟨k, hk⟩ : ∃ k, limit - out.counter = k + 1 := ⟨limit - out.counter - 1, by omega⟩
      simp only [hh, if_true, append_records, dedup_from, ge_iff_le, hk, List.take_succ_cons,
        ne_eq, not_false_eq_true]
      by_cases hstop : limit ≤ out.counter + 1
      · have hk0 : k = 0 := by omega
        rw [if_pos hstop, hk0]
        simp [append_records]
      · rw [if_neg hstop]
        have := ih e.1
          { hashes := Function.update out.hashes out.counter (P.rehash e.1)
            lines := Function.update out.lines out.counter e.2
            counter := out.counter + 1 } (by simpa using hstop)
        rw [this]
        have hk' : limit - (out.counter + 1) = k := by omega
        simp only [hk']

theorem emit_zero (P : Platform) (M : List (Nat × Nat)) (last : Nat) (out : Records)
    (hc : out.counter + 1 < 4294967296) :
    emit P 0 M last out = append_records P out (dedup_from last (M.take 1)) := by
  cases M with
  | nil => simp [emit, dedup_from, append_records]
  | cons e rest =>
    unfold emit
    rw [if_pos (Nat.zero_le _), add_hash_snd P e.1 e.2 out last hc]
    by_cases h : e.1 = last <;> simp [h, dedup_from]

theorem append_records_counter (P : Platform) (D : List (Nat × Nat)) : ∀ out : Records,
    (append_records P out D).counter = out.counter + D.length := by
  induction D with
  | nil => intro out; rfl
  | cons e D ih => intro out; simp only [append_records, ih, List.length_cons]; omega

theorem append_records_frame (P : Platform) (D : List (Nat × Nat)) : ∀ (out : Records) (j : Nat),
    (j < out.counter ∨ out.counter + D.length ≤ j) →
      (append_records P out D).hashes j = out.hashes j
        ∧ (append_records P out D).lines j = out.lines j := by
  induction D with
  | nil => intro out j _; exact ⟨rfl, rfl⟩
  | cons e D ih =>
    intro out j hj
    simp only [List.length_cons] at hj
    have hne : j ≠ out.counter := by omega
    have := ih
      { hashes := Function.update out.hashes out.counter (P.rehash e.1)
        lines := Function.update out.lines out.counter e.2
        counter := out.counter + 1 } j (by simp only []; omega)
    simpa only [append_records, Function.update_noteq hne] using this

theorem append_records_get (P : Platform) (D : List (Nat × Nat)) : ∀ (out : Records) (i : Nat)
    (h : i < D.length),
      (append_records P out D).hashes (out.counter + i) = P.rehash (D.get ⟨i, h⟩).1
        ∧ (append_records P out D).lines (out.counter + i) = (D.get ⟨i, h⟩).2 := by
  induction D with
  | nil => intro out i h; simp at h
  | cons e D ih =>
    intro out i h
    cases i with
    | zero =>
      have := append_records_frame P D
        { hashes := Function.update out.hashes out.counter (P.rehash e.1)
          lines := Function.update out.lines out.counter e.2
          counter := out.counter + 1 } out.counter (Or.inl (by simp only []; omega))
      simpa only [append_records, Nat.add_zero, Function.update_same, List.get_cons_zero]
        using this
    | succ i =>
      have := ih
        { hashes := Function.update out.hashes out.counter (P.rehash e.1)
          lines := Function.update out.lines out.counter e.2
          counter := out.counter + 1 } i (by simpa using h)
      have hi : out.counter + (i + 1) = out.counter + 1 + i := by omega
      simpa only [append_records, hi, List.get_cons_succ] using this

theorem sym_events_fst (B : List Nat) : ∀ line : Nat,
    (sym_events line B).map Prod.fst = symbols B := by
  induction B with
  | nil => intro line; rfl
  | cons c B ih =>
    intro line
    by_cases hz : normalize c = 0
    · simp only [sym_events, hz, if_true, ih, symbols, List.map_cons, ne_eq,
        not_true_eq_false, decide_False, Bool.false_eq_true, not_false_eq_true,
        List.filter_cons_of_neg]
    · simp only [sym_events, hz, if_false, List.map_cons, ih, symbols, ne_eq,
        not_false_eq_true, decide_True, List.filter_cons_of_pos]

theorem windows_of_length (n : Nat) (f : List Nat → Nat) (E : List (Nat × Nat)) :
    (windows_of n f E).length = E.length + 1 - n := by
  simp [windows_of]

theorem windows_of_getD (n : Nat) (f : List Nat → Nat) (E : List (Nat × Nat)) (k : Nat)
    (hk : k < E.length + 1 - n) :
    (windows_of n f E).getD k (0, 0)
      = (f (((E.drop k).take n).map Prod.fst), (E.getD (k + n - 1) (0, 0)).2) := by
  rw [List.getD_eq_getElem _ _ (by rw [windows_of_length]; exact hk)]
  simp [windows_of]

theorem drop_take_eq_map_range {α : Type} (L : List α) (d : α) (k W : Nat)
    (h : k + W ≤ L.length) :
    (L.drop k).take W = (List.range W).map fun t => L.getD (k + t) d := by
  apply List.ext_getElem
  · simp; omega
  · intro i h1 h2
    simp only [List.length_map, List.length_range] at h2
    simp only [List.getElem_take, List.getElem_drop, List.getElem_map, List.getElem_range]
    rw [List.getD_eq_getElem _ _ (by omega)]

theorem min_fold_eq (l : List Nat) : ∀ a : Nat,
    l.foldl (fun acc v => if v < acc then v else acc) a = l.foldl min a := by
  induction l with
  | nil => intro a; rfl
  | cons x l ih =>
    intro a
    simp only [List.foldl_cons, ih]
    congr 1
    by_cases h : x < a
    · rw [if_pos h]; omega
    · rw [if_neg h]; omega

theorem least_from_eq_min (l : List Nat) (hne : l ≠ []) (hle : ∀ v ∈ l, v ≤ MAX_UINT32) :
    least_from MAX_UINT32 l = (l.min?).getD 0 := by
  cases l with
  | nil => exact absurd rfl hne
  | cons a l =>
    have ha : a ≤ MAX_UINT32 := hle a (List.mem_cons_self _ _)
    have h1 : (if a < MAX_UINT32 then a else MAX_UINT32) = a := by
      by_cases h : a < MAX_UINT32
      · rw [if_pos h]
      · rw [if_neg h]; omega
    simp only [least_from, List.foldl_cons, h1, min_fold_eq, List.min?, Option.getD_some]

theorem crc_le (P : Platform) (data : List Nat) : P.crc data ≤ MAX_UINT32 := by
  have : P.calc_crc32c data % 4294967296 < 4294967296 := Nat.mod_lt _ (by decide)
  simp only [Platform.crc, u32, MAX_UINT32]
  omega

theorem symbols_cons_of_zero {c : Nat} (B : List Nat) (h : normalize c = 0) :
    symbols (c :: B) = symbols B := by
  simp [symbols, h]

theorem symbols_cons_of_ne {c : Nat} (B : List Nat) (h : normalize c ≠ 0) :
    symbols (c :: B) = normalize c :: symbols B := by
  simp [symbols, h]

theorem mins_getD (P : Platform) (G W : Nat) (hG : 1 ≤ G) (hW : 1 ≤ W)
    (E : List (Nat × Nat)) (k : Nat) (hk : k < window_count G W (E.map Prod.fst)) :
    (windows_of W (least_from MAX_UINT32) (windows_of G P.crc E)).getD k (0, 0)
      = (window_min P G W (E.map Prod.fst) k, (E.getD (k + G + W - 2) (0, 0)).2) := by
  simp only [window_count, List.length_map] at hk
  have hlenG := windows_of_length G P.crc E
  rw [windows_of_getD W _ _ k (by rw [hlenG]; exact hk)]
  have hidx : k + W - 1 < E.length + 1 - G := by omega
  rw [windows_of_getD G _ _ (k + W - 1) hidx]
  have hi : k + W - 1 + G - 1 = k + G + W - 2 := by omega
  rw [hi]
  congr 1
  rw [drop_take_eq_map_range _ (0, 0) k W (by rw [hlenG]; omega), List.map_map]
  have hwh : (List.range W).map (Prod.fst ∘ fun t => (windows_of G P.crc E).getD (k + t) (0, 0))
      = window_hashes P G W (E.map Prod.fst) k := by
    unfold window_hashes
    apply List.map_congr_left
    intro t ht
    have ht' : t < W := List.mem_range.mp ht
    rw [Function.comp, windows_of_getD G _ _ (k + t) (by omega)]
    simp only [gram_hash, List.map_take, List.map_drop]
  rw [hwh]
  unfold window_min
  apply least_from_eq_min
  · intro h
    have := congrArg List.length h
    simp [window_hashes] at this
    omega
  · intro v hv
    simp only [window_hashes, List.mem_map] at hv
    obtain ⟨t, _, rfl⟩ := hv
    exact crc_le P _

theorem mins_length (P : Platform) (G W : Nat) (E : List (Nat × Nat)) :
    (windows_of W (least_from MAX_UINT32) (windows_of G P.crc E)).length
      = window_count G W (E.map Prod.fst) := by
  simp [windows_of_length, window_count]

theorem normalize_newline : normalize 10 = 0 := by decide

theorem u32_succ_add (line cnt : Nat) : u32 (u32 (line + 1) + cnt) = u32 (line + (cnt + 1)) := by
  simp only [u32]
  omega

theorem sym_events_line (B : List Nat) : ∀ (line n : Nat), line < 4294967296 →
    n < (sym_events line B).length →
    ∃ p, p < B.length ∧ normalize (B.getD p 0) ≠ 0 ∧ (symbols (B.take p)).length = n
      ∧ ((sym_events line B).getD n (0, 0)).2 = u32 (line + (B.take (p + 1)).count 10) := by
  induction B with
  | nil => intro line n _ hn; simp [sym_events] at hn
  | cons c B ih =>
    intro line n hline hn
    by_cases hz : normalize c = 0
    · simp only [sym_events, hz, if_true] at hn ⊢
      have hline1 : (if c = 10 then u32 (line + 1) else line) < 4294967296 := by
        by_cases h10 : c = 10
        · rw [if_pos h10]; exact Nat.mod_lt _ (by decide)
        · rw [if_neg h10]; exact hline
      obtain ⟨p, hp, hnz, hsym, hl⟩ := ih _ n hline1 hn
      refine ⟨p + 1, by simpa using hp, by simpa using hnz, ?_, ?_⟩
      · rw [List.take_succ_cons, symbols_cons_of_zero _ hz]; exact hsym
      · rw [hl, List.take_succ_cons, List.count_cons]
        by_cases h10 : c = 10
        · simp only [h10, if_true, beq_self_eq_true]
          exact u32_succ_add _ _
        · have : (c == 10) = false := by simpa using h10
          simp only [h10, if_false, this, Bool.false_eq_true, Nat.add_zero]
    · have h10 : c ≠ 10 := fun h => hz (h ▸ normalize_newline)
      simp only [sym_events, hz, if_false, h10, List.length_cons] at hn ⊢
      cases n with
      | zero =>
        refine ⟨0, by simp, by simpa using hz, by simp [symbols], ?_⟩
        have : (c == 10) = false := by simpa using h10
        simp [List.count_cons, this, u32_of_lt hline]
      | succ n =>
        obtain ⟨p, hp, hnz, hsym, hl⟩ := ih line n hline (by omega)
        refine ⟨p + 1, by simpa using hp, by simpa using hnz, ?_, ?_⟩
        · rw [List.take_succ_cons, symbols_cons_of_ne _ hz, List.length_cons, hsym]
        · have : (c == 10) = false := by simpa using h10
          rw [List.getD_cons_succ, hl, List.take_succ_cons, List.count_cons]
          simp [this]

theorem dedup_from_map_range' (F : Nat → Nat × Nat) (last0 : Nat) : ∀ n s : Nat,
    dedup_from (if s = 0 then last0 else (F (s - 1)).1) ((List.range' s n).map F)
      = ((List.range' s n).filter
          (fun k => decide ((F k).1 ≠ if k = 0 then last0 else (F (k - 1)).1))).map F := by
  intro n
  induction n with
  | zero => intro s; rfl
  | succ n ih =>
    intro s
    have hnext := ih (s + 1)
    simp only [Nat.add_sub_cancel, Nat.succ_ne_zero, if_false] at hnext
    rw [List.range'_succ, List.map_cons, List.filter_cons]
    unfold dedup_from
    by_cases h : (F s).1 = if s = 0 then last0 else (F (s - 1)).1
    · have hd : decide ((F s).1 ≠ if s = 0 then last0 else (F (s - 1)).1) = false := by
        simp [h]
      rw [if_neg (fun hne => hne h), hd, hnext]
      simp
    · have hd : decide ((F s).1 ≠ if s = 0 then last0 else (F (s - 1)).1) = true := by
        simp [h]
      rw [if_pos h, hd, hnext]
      simp

theorem list_eq_map_range {α : Type} (L : List α) (d : α) :
    L = (List.range L.length).map fun k => L.getD k d := by
  have := drop_take_eq_map_range L d 0 L.length (by omega)
  simpa using this

theorem dedup_chain (M : List (Nat × Nat)) : ∀ last : Nat,
    List.Chain (fun a b => a ≠ b) last ((dedup_from last M).map Prod.fst) := by
  induction M with
  | nil => intro last; exact List.Chain.nil
  | cons e M ih =>
    intro last
    unfold dedup_from
    by_cases h : e.1 = last
    · rw [if_neg (fun hne => hne h), h]; exact ih last
    · rw [if_pos h, List.map_cons]
      exact List.Chain.cons (fun h1 => h h1.symm) (ih e.1)

theorem mins_eq_map (P : Platform) (G W : Nat) (hG : 1 ≤ G) (hW : 1 ≤ W) (B : List Nat) :
    windows_of W (least_from MAX_UINT32) (windows_of G P.crc (sym_events 1 B))
      = (List.range (window_count G W (symbols B))).map (window_event P G W B) := by
  have hlen := mins_length P G W (sym_events 1 B)
  rw [sym_events_fst] at hlen
  rw [list_eq_map_range (windows_of W (least_from MAX_UINT32)
    (windows_of G P.crc (sym_events 1 B))) (0, 0), hlen]
  apply List.map_congr_left
  intro k hk
  have hk' : k < window_count G W ((sym_events 1 B).map Prod.fst) := by
    rw [sym_events_fst]; exact List.mem_range.mp hk
  rw [mins_getD P G W hG hW _ k hk', sym_events_fst]
  rfl

theorem producers_map_eq (P : Platform) (G W limit : Nat) (B : List Nat) :
    (producers P G W limit (symbols B)).map (window_event P G W B)
      = if limit = 0 then
          dedup_from 0 (((List.range (window_count G W (symbols B))).map
            (window_event P G W B)).take 1)
        else
          (dedup_from 0 ((List.range (window_count G W (symbols B))).map
            (window_event P G W B))).take limit := by
  have key := fun n => dedup_from_map_range' (window_event P G W B) 0 n 0
  simp only [if_true, ← List.range_eq_range'] at key
  unfold producers
  by_cases h0 : limit = 0
  · simp only [h0, if_true, Nat.zero_max]
    rw [← List.map_take, List.take_range, key, List.take_of_length_le]
    · rfl
    · refine (List.length_filter_le _ _).trans ?_
      rw [List.length_range]; omega
  · have hmax : max limit 1 = limit := by omega
    simp only [h0, if_false, hmax]
    rw [key, List.map_take]
    rfl

theorem winnowing_eq (P : Platform) (G W : Nat) (src : List Nat) (hashes lines : Nat → Nat)
    (limit : Nat) (hG : 1 ≤ G) (hW : 1 ≤ W) (hlimit : limit < 4294967296) :
    winnowing P G W src hashes lines limit
      = .ok (append_records P { hashes := hashes, lines := lines, counter := 0 }
          ((producers P G W limit (symbols (visited src))).map
            (window_event P G W (visited src)))) := by
  rw [winnowing_eq_emit P G W src hashes lines limit hG hW]
  have h1 := slide_eq G P.crc hG (sym_events 1 (src.take (u32 (strlen src)))) [] (by simpa using hG)
  have h2 := slide_eq W (least_from MAX_UINT32) hW
    (windows_of G P.crc (sym_events 1 (src.take (u32 (strlen src))))) [] (by simpa using hW)
  simp only [List.map_nil, List.nil_append] at h1 h2
  rw [h1, h2, producers_map_eq, ← mins_eq_map P G W hG hW]
  by_cases h0 : limit = 0
  · subst h0
    rw [emit_zero P _ 0 { hashes := hashes, lines := lines, counter := 0 }
      (by show 0 + 1 < 4294967296; decide)]
    rfl
  · rw [emit_eq P limit hlimit _ 0 _ (by simp only []; omega), if_neg h0]
    rfl

/-! ## The windows that produce a record -/

theorem producers_pairwise (P : Platform) (G W limit : Nat) (S : List Nat) :
    (producers P G W limit S).Pairwise (fun a b => a < b) :=
  (List.pairwise_lt_range _).sublist ((List.take_sublist _ _).trans (List.filter_sublist _))

theorem producers_lt (P : Platform) (G W limit : Nat) (S : List Nat) (k : Nat)
    (hk : k ∈ producers P G W limit S) : k < window_count G W S := by
  have h1 := List.mem_of_mem_take hk
  have h2 := List.mem_range.mp (List.mem_filter.mp h1).1
  by_cases h0 : limit = 0
  · rw [if_pos h0] at h2; omega
  · rw [if_neg h0] at h2; exact h2

theorem producers_length_le (P : Platform) (G W limit : Nat) (S : List Nat) :
    (producers P G W limit S).length ≤ max limit 1 :=
  List.length_take_le _ _

theorem mem_take_filter_range (p : Nat → Bool) (N L k : Nat) (hk : k < N) (hp : p k = true)
    (hc : (((List.range N).filter p).take L).countP (fun j => decide (j < k)) < L) :
    k ∈ ((List.range N).filter p).take L := by
  obtain ⟨d, hd⟩ : ∃ d, N = k + (d + 1) := ⟨N - k - 1, by omega⟩
  have hsplit : (List.range N).filter p
      = (List.range k).filter p ++ k :: ((List.range d).map (fun x => k + (x + 1))).filter p := by
    rw [hd, List.range_add, List.filter_append, List.range_succ_eq_map, List.map_cons,
      List.filter_cons, Nat.add_zero, hp, List.map_map]
    rfl
  rw [hsplit] at hc ⊢
  by_cases hlen : ((List.range k).filter p).length < L
  · rw [List.take_append_eq_append_take]
    apply List.mem_append_right
    obtain ⟨e, he⟩ : ∃ e, L - ((List.range k).filter p).length = e + 1 :=
      ⟨L - ((List.range k).filter p).length - 1, by omega⟩
    rw [he, List.take_succ_cons]
    exact List.mem_cons_self _ _
  · exfalso
    rw [List.take_append_of_le_length (by omega)] at hc
    have hall : (((List.range k).filter p).take L).countP (fun j => decide (j < k))
        = (((List.range k).filter p).take L).length := by
      rw [List.countP_eq_length]
      intro a ha
      have := List.mem_range.mp (List.mem_filter.mp (List.mem_of_mem_take ha)).1
      simpa using this
    rw [hall, List.length_take] at hc
    omega

theorem producers_mem_iff (P : Platform) (G W limit : Nat) (S : List Nat) (k : Nat)
    (hk1 : 1 ≤ k) (hkN : k < window_count G W S)
    (hc : (producers P G W limit S).countP (fun j => decide (j < k)) < limit) :
    k ∈ producers P G W limit S ↔ window_min P G W S k ≠ window_min P G W S (k - 1) := by
  have hk0 : k ≠ 0 := by omega
  constructor
  · intro hk
    have h1 := (List.mem_filter.mp (List.mem_of_mem_take hk)).2
    simpa [hk0] using h1
  · intro hne
    have h0 : limit ≠ 0 := by omega
    have hmax : max limit 1 = limit := by omega
    unfold producers at hc ⊢
    simp only [h0, if_false, hmax] at hc ⊢
    exact mem_take_filter_range _ _ _ k hkN (by simpa [hk0] using hne) hc

theorem producers_mem_full (P : Platform) (G W limit : Nat) (S : List Nat) (k : Nat) :
    k ∈ producers P G W limit S ↔
      k < window_count G W S
      ∧ (k = 0 ∨ (producers P G W limit S).countP (fun j => decide (j < k)) < limit)
      ∧ window_min P G W S k ≠ (if k = 0 then 0 else window_min P G W S (k - 1)) := by
  constructor
  · intro hk
    refine ⟨producers_lt P G W limit S k hk, ?_, ?_⟩
    · by_cases hk0 : k = 0
      · exact Or.inl hk0
      · right
        have hlt : (producers P G W limit S).countP (fun j => decide (j < k))
            < (producers P G W limit S).length := by
          have hle := List.countP_le_length (fun j => decide (j < k))
            (l := producers P G W limit S)
          have hne : (producers P G W limit S).countP (fun j => decide (j < k))
              ≠ (producers P G W limit S).length := by
            intro heq
            have := (List.countP_eq_length.mp heq) k hk
            simp at this
          omega
        have hlen := producers_length_le P G W limit S
        by_cases h0 : limit = 0
        · exfalso
          have h1 := List.mem_range.mp (List.mem_filter.mp (List.mem_of_mem_take hk)).1
          rw [if_pos h0] at h1
          omega
        · omega
    · exact of_decide_eq_true (List.mem_filter.mp (List.mem_of_mem_take hk)).2
  · rintro ⟨hN, hmid, hp⟩
    by_cases hk0 : k = 0
    · subst hk0
      unfold producers
      apply mem_take_filter_range
      · split <;> omega
      · exact decide_eq_true hp
      · have hz : ∀ l : List Nat, l.countP (fun j => decide (j < 0)) = 0 := by
          intro l
          rw [List.countP_eq_zero]
          intro a _
          simp
        rw [hz]
        omega
    · rcases hmid with h | h
      · exact absurd h hk0
      · rw [if_neg hk0] at hp
        exact (producers_mem_iff P G W limit S k (by omega) hN h).mpr hp

theorem producers_chain (P : Platform) (G W limit : Nat) (B : List Nat) :
    List.Chain' (fun a b => window_min P G W (symbols B) a ≠ window_min P G W (symbols B) b)
      (producers P G W limit (symbols B)) := by
  have hmap : ((producers P G W limit (symbols B)).map (window_event P G W B)).map Prod.fst
      = (producers P G W limit (symbols B)).map (window_min P G W (symbols B)) := by
    rw [List.map_map]; rfl
  have hch : List.Chain' (fun a b : Nat => a ≠ b)
      (((producers P G W limit (symbols B)).map (window_event P G W B)).map Prod.fst) := by
    rw [producers_map_eq]
    by_cases h0 : limit = 0
    · rw [if_pos h0]
      exact List.Chain'.tail (l := 0 :: _) (dedup_chain _ 0)
    · rw [if_neg h0, List.map_take]
      exact List.Chain'.take (List.Chain'.tail (l := 0 :: _) (dedup_chain _ 0)) _
  rw [hmap] at hch
  exact (List.chain'_map _).mp hch

theorem winnowing_run (P : Platform) (G W : Nat) (src : List Nat) (hashes lines : Nat → Nat)
    (limit : Nat) (hG : 1 ≤ G) (hW : 1 ≤ W) (hlimit : limit < 4294967296) :
    ∃ r, winnowing P G W src hashes lines limit = .ok r
      ∧ r.counter = (producers P G W limit (symbols (visited src))).length
      ∧ (∀ (i : Nat) (h : i < (producers P G W limit (symbols (visited src))).length),
          r.hashes i = P.rehash (window_min P G W (symbols (visited src))
              ((producers P G W limit (symbols (visited src))).get ⟨i, h⟩))
          ∧ r.lines i = window_line G W (visited src)
              ((producers P G W limit (symbols (visited src))).get ⟨i, h⟩))
      ∧ (∀ j, (producers P G W limit (symbols (visited src))).length ≤ j →
          r.hashes j = hashes j ∧ r.lines j = lines j) := by
  refine ⟨_, winnowing_eq P G W src hashes lines limit hG hW hlimit, ?_, ?_, ?_⟩
  · rw [append_records_counter]; simp
  · intro i h
    have := append_records_get P
      ((producers P G W limit (symbols (visited src))).map (window_event P G W (visited src)))
      { hashes := hashes, lines := lines, counter := 0 } i (by simpa using h)
    simpa [window_event] using this
  · intro j hj
    have := append_records_frame P
      ((producers P G W limit (symbols (visited src))).map (window_event P G W (visited src)))
      { hashes := hashes, lines := lines, counter := 0 } j (Or.inr (by simpa using hj))
    simpa using this

/-! ## The visited bytes and the source -/

theorem visited_length_lt (src : List Nat) : (visited src).length < 4294967296 := by
  have h : u32 (strlen src) < 4294967296 := Nat.mod_lt _ (by decide)
  simp only [visited, List.length_take]
  omega

theorem visited_take (src : List Nat) (n : Nat) (h : n ≤ (visited src).length) :
    (visited src).take n = src.take n := by
  simp only [visited, List.length_take] at h ⊢
  rw [List.take_take, Nat.min_eq_left (by omega)]

theorem visited_getD (src : List Nat) (p : Nat) (h : p < (visited src).length) :
    (visited src).getD p 0 = src.getD p 0 := by
  simp only [visited, List.length_take] at h ⊢
  rw [List.getD_eq_getElem?_getD, List.getD_eq_getElem?_getD, List.getElem?_take_of_lt (by omega)]

theorem strlen_of_zero_free (s : List Nat) (hs : ∀ b ∈ s, b ≠ 0) : strlen s = s.length := by
  unfold strlen
  rw [List.takeWhile_eq_self_iff.mpr]
  intro b hb
  simpa using hs b hb

theorem strlen_append_zero (s t : List Nat) (hs : ∀ b ∈ s, b ≠ 0) :
    strlen (s ++ 0 :: t) = s.length := by
  unfold strlen
  rw [List.takeWhile_append_of_pos (by intro b hb; simpa using hs b hb)]
  simp

theorem symbols_append (A B : List Nat) : symbols (A ++ B) = symbols A ++ symbols B := by
  simp [symbols]

theorem window_min_append (P : Platform) (G W : Nat) (S T : List Nat) (k : Nat)
    (hk : k < window_count G W S) :
    window_min P G W (S ++ T) k = window_min P G W S k := by
  unfold window_min window_hashes
  congr 2
  apply List.map_congr_left
  intro t ht
  have ht' : t < W := List.mem_range.mp ht
  unfold window_count at hk
  unfold gram_hash
  rw [List.drop_append_of_le_length (by omega), List.take_append_of_le_length
    (by rw [List.length_drop]; omega)]

theorem window_line_spec (G W : Nat) (hG : 1 ≤ G) (hW : 1 ≤ W) (B : List Nat)
    (hB : B.length < 4294967296) (k : Nat) (hk : k < window_count G W (symbols B)) :
    ∃ p, p < B.length ∧ normalize (B.getD p 0) ≠ 0
      ∧ (symbols (B.take p)).length = k + G + W - 2
      ∧ window_line G W B k = 1 + (B.take (p + 1)).count 10 := by
  have hlen : (sym_events 1 B).length = (symbols B).length := by
    rw [← sym_events_fst B 1, List.length_map]
  unfold window_count at hk
  obtain ⟨p, hp, hnz, hsym, hline⟩ :=
    sym_events_line B 1 (k + G + W - 2) (by decide) (by rw [hlen]; omega)
  refine ⟨p, hp, hnz, hsym, ?_⟩
  unfold window_line
  rw [hline]
  apply u32_of_lt
  have hmem : B.getD p 0 ∈ B.take (p + 1) := by
    rw [List.getD_eq_getElem _ _ hp, List.mem_take_iff_getElem]
    exact ⟨p, by rw [Nat.min_def]; split <;> omega, rfl⟩
  have hne : (B.take (p + 1)).count 10 ≠ (B.take (p + 1)).length := by
    intro heq
    have := (List.count_eq_length.mp heq) _ hmem
    rw [← this] at hnz
    exact hnz normalize_newline
  have hle := List.count_le_length 10 (B.take (p + 1))
  have hlt : (B.take (p + 1)).length ≤ B.length := by
    rw [List.length_take]; omega
  omega

/-! ## Values on the concrete platform, and the closed form of a run -/

theorem crc32c_check : crc32c [49, 50, 51, 52, 53, 54, 55, 56, 57] = 0xE3069283 := by decide

theorem window_min_least (P : Platform) (G W : Nat) (hW : 1 ≤ W) (S : List Nat) (k : Nat) :
    (∃ t, t < W ∧ window_min P G W S k = gram_hash P G S (k + t))
      ∧ ∀ t, t < W → window_min P G W S k ≤ gram_hash P G S (k + t) := by
  have hne : window_hashes P G W S k ≠ [] := by
    intro h
    have := congrArg List.length h
    simp [window_hashes] at this
    omega
  obtain ⟨a, l, hal⟩ := List.exists_cons_of_ne_nil hne
  have hsome : (window_hashes P G W S k).min? = some (window_min P G W S k) := by
    unfold window_min
    rw [hal]
    simp [List.min?]
  obtain ⟨hmem, hle⟩ := List.min?_eq_some_iff'.mp hsome
  constructor
  · simp only [window_hashes, List.mem_map, List.mem_range] at hmem
    obtain ⟨t, ht, heq⟩ := hmem
    exact ⟨t, ht, heq.symm⟩
  · intro t ht
    apply hle
    simp only [window_hashes, List.mem_map, List.mem_range]
    exact ⟨t, ht, rfl⟩

theorem window_count_mono (G W : Nat) (S T : List Nat) :
    window_count G W S ≤ window_count G W (S ++ T) := by
  simp only [window_count, List.length_append]
  omega

theorem symbols_visited (src : List Nat) :
    ∃ T, symbols src = symbols (visited src) ++ T := by
  refine ⟨symbols (src.drop (u32 (strlen src))), ?_⟩
  rw [visited, ← symbols_append, List.take_append_drop]

theorem counter_le_limit (P : Platform) (G W : Nat) (src : List Nat)
    (hashes lines : Nat → Nat) (limit : Nat) (hG : 1 ≤ G) (hW : 1 ≤ W)
    (hlimit : limit < 4294967296) :
    ∃ r, winnowing P G W src hashes lines limit = .ok r ∧ r.counter ≤ max limit 1 := by
  obtain ⟨r, hr, hcount, _, _⟩ := winnowing_run P G W src hashes lines limit hG hW hlimit
  exact ⟨r, hr, by rw [hcount]; exact producers_length_le _ _ _ _ _⟩

theorem records_append_records (P : Platform) (hashes lines : Nat → Nat)
    (D : List (Nat × Nat)) :
    records (.ok (append_records P { hashes := hashes, lines := lines, counter := 0 } D))
      = some (D.map fun e => (P.rehash e.1, e.2)) := by
  simp only [records, append_records_counter, Nat.zero_add, Option.some.injEq]
  apply List.ext_getElem
  · simp
  · intro i h1 h2
    have hi : i < D.length := by simpa using h2
    have := append_records_get P D { hashes := hashes, lines := lines, counter := 0 } i hi
    simp only [Nat.zero_add, List.get_eq_getElem] at this
    simp only [List.getElem_map, List.getElem_range, this.1, this.2]

theorem records_winnowing (P : Platform) (G W : Nat) (src : List Nat)
    (hashes lines : Nat → Nat) (limit : Nat) (hG : 1 ≤ G) (hW : 1 ≤ W)
    (hlimit : limit < 4294967296) :
    records (winnowing P G W src hashes lines limit)
      = some (((producers P G W limit (symbols (visited src))).map
          (window_event P G W (visited src))).map fun e => (P.rehash e.1, e.2)) := by
  rw [winnowing_eq P G W src hashes lines limit hG hW hlimit, records_append_records]

/-! ## The claims -/

/-- C1: for `G, W ≥ 1`, a limit that fits a `uint32_t` and every source (with
or without a zero byte), the run returns, and its records are the images of
real windows of the symbol stream of the source:
there are strictly increasing window indices `ks`, as many as records, each the
index of a full window, such that the `i`-th value written is the checksum of
the four bytes of the minimum `m(k_i)`, where `m(k)` is the least of the gram
hashes `h(k), ..., h(k + W - 1)` and `h(j)` is the checksum of the symbols
`j, ..., j + G - 1`. -/
theorem records_are_window_images (P : Platform) (G W : Nat) (src : List Nat)
    (hashes lines : Nat → Nat) (limit : Nat) (hG : 1 ≤ G) (hW : 1 ≤ W)
    (hlimit : limit < 4294967296) :
    ∃ (r : Records) (ks : List Nat),
      winnowing P G W src hashes lines limit = .ok r
      ∧ ks.length = r.counter
      ∧ ks.Pairwise (fun a b => a < b)
      ∧ (∀ k ∈ ks, k < window_count G W (symbols src))
      ∧ ∀ (i : Nat) (h : i < ks.length),
          r.hashes i = P.rehash (window_min P G W (symbols src) (ks.get ⟨i, h⟩))
          ∧ (∃ t, t < W ∧ window_min P G W (symbols src) (ks.get ⟨i, h⟩)
                = gram_hash P G (symbols src) (ks.get ⟨i, h⟩ + t))
          ∧ ∀ t, t < W → window_min P G W (symbols src) (ks.get ⟨i, h⟩)
                ≤ gram_hash P G (symbols src) (ks.get ⟨i, h⟩ + t) := by
  obtain ⟨r, hr, hcount, hrec, _⟩ := winnowing_run P G W src hashes lines limit hG hW hlimit
  obtain ⟨T, hT⟩ := symbols_visited src
  refine ⟨r, producers P G W limit (symbols (visited src)), hr, hcount.symm,
    producers_pairwise _ _ _ _ _, ?_, ?_⟩
  · intro k hk
    have := producers_lt _ _ _ _ _ k hk
    rw [hT]
    exact Nat.lt_of_lt_of_le this (window_count_mono _ _ _ _)
  · intro i h
    have hlt := producers_lt P G W limit _ _ (List.get_mem _ i h)
    have hmin := window_min_append P G W (symbols (visited src)) T _ hlt
    rw [← hT] at hmin
    rw [hmin]
    refine ⟨(hrec i h).1, ?_⟩
    rw [← hmin]
    exact window_min_least P G W hW (symbols src) _

/-- C3: for `G, W ≥ 1` the run returns and its records come from strictly
increasing windows `ks` of the visited bytes such that, as long as fewer than
`limit` records were produced by the windows before it, a window `k ≥ 1`
produces a record if and only if its minimum differs from the minimum of
window `k - 1`; and the minima behind two consecutive records differ. -/
theorem dedup_of_consecutive_windows (P : Platform) (G W : Nat) (src : List Nat)
    (hashes lines : Nat → Nat) (limit : Nat) (hG : 1 ≤ G) (hW : 1 ≤ W)
    (hlimit : limit < 4294967296) :
    ∃ (r : Records) (ks : List Nat),
      winnowing P G W src hashes lines limit = .ok r
      ∧ ks.length = r.counter
      ∧ ks.Pairwise (fun a b => a < b)
      ∧ (∀ (i : Nat) (h : i < ks.length),
          r.hashes i = P.rehash (window_min P G W (symbols (visited src)) (ks.get ⟨i, h⟩)))
      ∧ (∀ k, 1 ≤ k → k < window_count G W (symbols (visited src)) →
          ks.countP (fun j => decide (j < k)) < limit →
          (k ∈ ks ↔ window_min P G W (symbols (visited src)) k
            ≠ window_min P G W (symbols (visited src)) (k - 1)))
      ∧ List.Chain' (fun a b => window_min P G W (symbols (visited src)) a
            ≠ window_min P G W (symbols (visited src)) b) ks := by
  obtain ⟨r, hr, hcount, hrec, _⟩ := winnowing_run P G W src hashes lines limit hG hW hlimit
  exact ⟨r, producers P G W limit (symbols (visited src)), hr, hcount.symm,
    producers_pairwise _ _ _ _ _, fun i h => (hrec i h).1,
    fun k hk1 hkN hc => producers_mem_iff P G W limit _ k hk1 hkN hc,
    producers_chain P G W limit (visited src)⟩

/-- C5: `normalize` keeps digits and lowercase letters, adds 32 to an uppercase
letter, and gives zero for every other byte (zero included); its result is zero
or a digit or a lowercase letter. -/
theorem normalize_spec (byte : Nat) :
    ((48 ≤ byte ∧ byte ≤ 57) ∨ (97 ≤ byte ∧ byte ≤ 122) → normalize byte = byte)
    ∧ (65 ≤ byte ∧ byte ≤ 90 → normalize byte = byte + 32)
    ∧ (¬ ((48 ≤ byte ∧ byte ≤ 57) ∨ (97 ≤ byte ∧ byte ≤ 122) ∨ (65 ≤ byte ∧ byte ≤ 90)) →
        normalize byte = 0)
    ∧ (normalize byte = 0 ∨ (48 ≤ normalize byte ∧ normalize byte ≤ 57)
        ∨ (97 ≤ normalize byte ∧ normalize byte ≤ 122)) := by
  unfold normalize
  refine ⟨?_, ?_, ?_, ?_⟩
  · intro h; split_ifs <;> omega
  · intro h; split_ifs <;> omega
  · intro h; split_ifs <;> omega
  · split_ifs <;> omega

/-- The lines of the records: for `G, W ≥ 1` the run returns, and its records
come from the windows `ks` that produce a record, which are these: a window `k`
of the visited bytes produces a record if and only if the run gets to it
(it is window `0`, or fewer than `limit` records come from the windows before
it) and its minimum differs from `last`, which is `0` for window `0` and the
minimum of window `k - 1` otherwise. The record of window `k` carries the line
of the byte that completed the window: there is a position `p` among the
visited bytes whose byte is the symbol `k + G + W - 2` (the last symbol of the
window), and the line written is one plus the number of newline bytes among
the bytes `0, ..., p` of the source. -/
theorem record_lines (P : Platform) (G W : Nat) (src : List Nat)
    (hashes lines : Nat → Nat) (limit : Nat) (hG : 1 ≤ G) (hW : 1 ≤ W)
    (hlimit : limit < 4294967296) :
    ∃ (r : Records) (ks : List Nat),
      winnowing P G W src hashes lines limit = .ok r
      ∧ ks.length = r.counter
      ∧ ks.Pairwise (fun a b => a < b)
      ∧ (∀ k, k ∈ ks ↔
          k < window_count G W (symbols (visited src))
          ∧ (k = 0 ∨ ks.countP (fun j => decide (j < k)) < limit)
          ∧ window_min P G W (symbols (visited src)) k
              ≠ (if k = 0 then 0 else window_min P G W (symbols (visited src)) (k - 1)))
      ∧ ∀ (i : Nat) (h : i < ks.length),
          ∃ p, p < (visited src).length ∧ normalize (src.getD p 0) ≠ 0
            ∧ (symbols (src.take p)).length = ks.get ⟨i, h⟩ + G + W - 2
            ∧ r.hashes i
                = P.rehash (window_min P G W (symbols (visited src)) (ks.get ⟨i, h⟩))
            ∧ r.lines i = 1 + (src.take (p + 1)).count 10 := by
  obtain ⟨r, hr, hcount, hrec, _⟩ := winnowing_run P G W src hashes lines limit hG hW hlimit
  refine ⟨r, producers P G W limit (symbols (visited src)), hr, hcount.symm,
    producers_pairwise _ _ _ _ _, producers_mem_full P G W limit _, ?_⟩
  intro i h
  have hlt := producers_lt P G W limit _ _ (List.get_mem _ i h)
  obtain ⟨p, hp, hnz, hsym, hline⟩ :=
    window_line_spec G W hG hW (visited src) (visited_length_lt src) _ hlt
  refine ⟨p, hp, ?_, ?_, (hrec i h).1, ?_⟩
  · rw [← visited_getD src p hp]; exact hnz
  · rw [← visited_take src p (by omega)]; exact hsym
  · rw [(hrec i h).2, hline, visited_take src (p + 1) (by omega)]

/-- C7: the scan stops at the first zero byte: whatever follows a zero byte
has no effect on the result. -/
theorem zero_byte_truncates (P : Platform) (G W : Nat) (s t : List Nat)
    (hashes lines : Nat → Nat) (limit : Nat) (hs : ∀ b ∈ s, b ≠ 0) :
    winnowing P G W (s ++ 0 :: t) hashes lines limit
      = winnowing P G W s hashes lines limit := by
  have hle : u32 s.length ≤ s.length := Nat.mod_le _ _
  simp only [winnowing, strlen_append_zero s t hs, strlen_of_zero_free s hs,
    List.take_append_of_le_length hle]

/-! ### Sources without content, and zero-sized buffers -/

theorem scan_without_content (P : Platform) (G W limit : Nat) (bytes : List Nat) :
    ∀ s : State, (∀ b ∈ bytes, normalize b = 0) →
      ∃ s1, scan P G W limit bytes s = .ok s1 ∧ s1.out = s.out := by
  induction bytes with
  | nil => intro s _; exact ⟨s, rfl, rfl⟩
  | cons c rest ih =>
    intro s h
    have hz : normalize c = 0 := h c (List.mem_cons_self _ _)
    obtain ⟨s1, hs1, hout⟩ := ih (if c = 10 then { s with line := u32 (s.line + 1) } else s)
      (fun b hb => h b (List.mem_cons_of_mem _ hb))
    refine ⟨s1, ?_, ?_⟩
    · simp only [scan, step, hz, if_true, hs1]
    · rw [hout]; by_cases h10 : c = 10 <;> simp [h10]

theorem scan_zero_gram (P : Platform) (W limit : Nat) (bytes : List Nat) :
    ∀ s : State, s.gram = [] → (∃ b ∈ bytes, normalize b ≠ 0) →
      scan P 0 W limit bytes s = .error .out_of_bounds := by
  induction bytes with
  | nil => intro s _ h; obtain ⟨b, hb, _⟩ := h; simp at hb
  | cons c rest ih =>
    intro s hg h
    have hg0 : (if c = 10 then { s with line := u32 (s.line + 1) } else s).gram = [] := by
      by_cases h10 : c = 10 <;> simp [h10, hg]
    by_cases hz : normalize c = 0
    · have hrest : ∃ b ∈ rest, normalize b ≠ 0 := by
        obtain ⟨b, hb, hnb⟩ := h
        rcases List.mem_cons.mp hb with rfl | hb
        · exact absurd hz hnb
        · exact ⟨b, hb, hnb⟩
      have := ih _ hg0 hrest
      simp only [scan, step, hz, if_true, this]
    · simp only [scan, step, hz, if_false, hg0, Buffer.store, List.length_nil,
        Nat.not_lt_zero]

theorem scan_zero_window (P : Platform) (G limit : Nat) (bytes : List Nat) :
    ∀ (s : State) (g : List Nat), Pending G s.gram s.gram_ptr g → s.window = [] →
      G ≤ g.length + (symbols bytes).length →
      scan P G 0 limit bytes s = .error .out_of_bounds := by
  induction bytes with
  | nil =>
    intro s g hg _ hlen
    have := hg.2.1
    simp [symbols] at hlen
    omega
  | cons c rest ih =>
    intro s g hg hw hlen
    obtain ⟨s0, hs0, h0gram, h0gptr, h0win⟩ :
        ∃ s0 : State, s0 = (if c = 10 then { s with line := u32 (s.line + 1) } else s)
          ∧ s0.gram = s.gram ∧ s0.gram_ptr = s.gram_ptr ∧ s0.window = s.window := by
      refine ⟨_, rfl, ?_⟩
      by_cases h10 : c = 10 <;> simp [h10]
    rw [← h0gram, ← h0gptr] at hg
    rw [← h0win] at hw
    have hstep : step P G 0 limit c s =
        if normalize c = 0 then .ok (false, s0)
        else
          match s0.gram.store s0.gram_ptr (normalize c) with
          | .error f => .error f
          | .ok gram =>
            if { s0 with gram := gram, gram_ptr := s0.gram_ptr + 1 }.gram_ptr ≥ G then
              full_gram P G 0 limit { s0 with gram := gram, gram_ptr := s0.gram_ptr + 1 }
            else .ok (false, { s0 with gram := gram, gram_ptr := s0.gram_ptr + 1 }) := by
      rw [hs0]; rfl
    by_cases hz : normalize c = 0
    · rw [symbols_cons_of_zero _ hz] at hlen
      have := ih s0 g hg hw hlen
      simp only [scan, hstep, hz, if_true, this]
    · rw [symbols_cons_of_ne _ hz, List.length_cons] at hlen
      by_cases hfull : G ≤ (g ++ [normalize c]).length
      · obtain ⟨hst, hl⟩ := pending_store_full hg (normalize c) hfull
        have hptr : G ≤ s0.gram_ptr + 1 := by
          rw [hg.1]; simpa using hfull
        have hload : Buffer.load_from (List.map some (g ++ [normalize c])) 0 G
            = .ok (g ++ [normalize c]) := by
          rw [← hl]; exact load_from_full _
        have hwst : ∀ i v, Buffer.store [] i v = .error Fault.out_of_bounds := by
          intro i v; simp [Buffer.store]
        simp only [scan, hstep, hz, if_false, hst, ge_iff_le, hptr, if_true, full_gram,
          hload, hw, hwst]
      · obtain ⟨gbuf, hst, hgpend⟩ := pending_store_lt hg (normalize c) hfull
        have hptr : ¬ G ≤ s0.gram_ptr + 1 := by
          rw [hg.1]; simpa using hfull
        have := ih { s0 with gram := gbuf, gram_ptr := s0.gram_ptr + 1 } (g ++ [normalize c])
          hgpend hw (by simp only [List.length_append, List.length_singleton]; omega)
        simp only [scan, hstep, hz, if_false, hst, ge_iff_le, hptr, this]

/-- C8, as the code has it: `winnowing` checks neither size and has no
configuration error. Whatever the sizes (zero included), a source without
letters and digits is scanned to its end and zero is returned. With a gram
size of zero the first letter or digit is written outside the gram buffer,
and with a window size of zero the first gram hash is written outside the
window buffer. -/
theorem no_configuration_check (P : Platform) (G W : Nat) (src : List Nat)
    (hashes lines : Nat → Nat) (limit : Nat) :
    ((∀ b ∈ visited src, normalize b = 0) →
      winnowing P G W src hashes lines limit
        = .ok { hashes := hashes, lines := lines, counter := 0 })
    ∧ (G = 0 → (∃ b ∈ visited src, normalize b ≠ 0) →
        fault (winnowing P G W src hashes lines limit) = some Fault.out_of_bounds)
    ∧ (W = 0 → 1 ≤ G → G ≤ (symbols (visited src)).length →
        fault (winnowing P G W src hashes lines limit) = some Fault.out_of_bounds) := by
  refine ⟨?_, ?_, ?_⟩
  · intro h
    obtain ⟨s1, hs1, hout⟩ := scan_without_content P G W limit (visited src)
      (initial G W hashes lines) h
    simp only [visited] at hs1
    simp only [winnowing, hs1, hout]
    rfl
  · intro hG h
    subst hG
    have := scan_zero_gram P W limit (visited src) (initial 0 W hashes lines) rfl h
    simp only [visited] at this
    simp only [winnowing, this, fault]
  · intro hW hG h
    subst hW
    have := scan_zero_window P G limit (visited src) (initial G 0 hashes lines) []
      (pending_malloc G hG) rfl (by simpa using h)
    simp only [visited] at this
    simp only [winnowing, this, fault]

/-- C8, counterexample: with a gram size of zero a source of two newline bytes
is processed and zero is returned, no error; and on the source `a` the run does
get to the write into the gram buffer of size zero. -/
theorem zero_gram_size_is_accepted :
    records (winnowing standard 0 64 [10, 10] (fun _ => 0) (fun _ => 0) 5) = some []
    ∧ fault (winnowing standard 0 64 [97] (fun _ => 0) (fun _ => 0) 5)
        = some Fault.out_of_bounds := by
  decide

theorem no_configuration_check_witness :
    fault (winnowing standard 0 64 [97] (fun _ => 0) (fun _ => 0) 5)
      = some Fault.out_of_bounds :=
  (no_configuration_check standard 0 64 [97] (fun _ => 0) (fun _ => 0) 5).2.1 rfl
    ⟨97, by decide, by decide⟩

/-! ### Case -/

theorem normalize_to_lower (c : Nat) : normalize (to_lower c) = normalize c := by
  unfold normalize to_lower
  split_ifs <;> omega

theorem to_lower_eq_newline (c : Nat) : to_lower c = 10 ↔ c = 10 := by
  unfold to_lower
  split_ifs <;> omega

theorem to_lower_ne_zero (c : Nat) : to_lower c ≠ 0 ↔ c ≠ 0 := by
  unfold to_lower
  split_ifs <;> omega

theorem step_to_lower (P : Platform) (G W limit : Nat) (c : Nat) (s : State) :
    step P G W limit (to_lower c) s = step P G W limit c s := by
  simp only [step, normalize_to_lower, to_lower_eq_newline]

theorem scan_to_lower (P : Platform) (G W limit : Nat) (bytes : List Nat) : ∀ s : State,
    scan P G W limit (bytes.map to_lower) s = scan P G W limit bytes s := by
  induction bytes with
  | nil => intro s; rfl
  | cons c rest ih =>
    intro s
    simp only [List.map_cons, scan, step_to_lower, ih]

theorem strlen_to_lower (s : List Nat) : strlen (s.map to_lower) = strlen s := by
  have hfun : ((fun b => decide (b ≠ 0)) ∘ to_lower) = fun b => decide (b ≠ 0) := by
    funext b
    simp only [Function.comp, to_lower_ne_zero]
  simp only [strlen, List.takeWhile_map, List.length_map, hfun]

theorem symbols_to_lower (s : List Nat) : symbols (s.map to_lower) = symbols s := by
  simp only [symbols, List.map_map]
  congr 1
  apply List.map_congr_left
  intro c _
  exact normalize_to_lower c

/-- C10: lowering the uppercase letters of a source changes nothing: the
result (counter, values and lines) is the same, and so is the symbol stream,
hence every gram hash. -/
theorem case_invariance (P : Platform) (G W : Nat) (s : List Nat)
    (hashes lines : Nat → Nat) (limit : Nat) :
    winnowing P G W (s.map to_lower) hashes lines limit = winnowing P G W s hashes lines limit
    ∧ symbols (s.map to_lower) = symbols s
    ∧ ∀ j, gram_hash P G (symbols (s.map to_lower)) j = gram_hash P G (symbols s) j := by
  refine ⟨?_, symbols_to_lower s, fun j => by rw [symbols_to_lower]⟩
  simp only [winnowing, strlen_to_lower, ← List.map_take, scan_to_lower]

/-- C10 on the sources `ABC` and `abc`. -/
theorem case_invariance_witness :
    winnowing standard 3 1 [97, 98, 99] (fun _ => 0) (fun _ => 0) 5
      = winnowing standard 3 1 [65, 66, 67] (fun _ => 0) (fun _ => 0) 5
    ∧ gram_hash standard 3 (symbols [97, 98, 99]) 0
      = gram_hash standard 3 (symbols [65, 66, 67]) 0 :=
  ⟨(case_invariance standard 3 1 [65, 66, 67] (fun _ => 0) (fun _ => 0) 5).1,
   (case_invariance standard 3 1 [65, 66, 67] (fun _ => 0) (fun _ => 0) 5).2.2 0⟩

/-! ### Bytes without content -/

theorem thinned_symbols {s1 s : List Nat} (h : Thinned s1 s) : symbols s1 = symbols s := by
  induction h with
  | nil => rfl
  | keep c _ ih =>
    by_cases hz : normalize c = 0
    · rw [symbols_cons_of_zero _ hz, symbols_cons_of_zero _ hz, ih]
    · rw [symbols_cons_of_ne _ hz, symbols_cons_of_ne _ hz, ih]
  | drop c hz _ ih => rw [symbols_cons_of_zero _ hz, ih]

theorem thinned_length {s1 s : List Nat} (h : Thinned s1 s) : s1.length ≤ s.length := by
  induction h with
  | nil => exact Nat.le_refl _
  | keep c _ ih => simp only [List.length_cons]; omega
  | drop c _ _ ih => simp only [List.length_cons]; omega

theorem thinned_mem {s1 s : List Nat} (h : Thinned s1 s) : ∀ b ∈ s1, b ∈ s := by
  induction h with
  | nil => intro b hb; exact hb
  | keep c _ ih =>
    intro b hb
    rcases List.mem_cons.mp hb with rfl | hb
    · exact List.mem_cons_self _ _
    · exact List.mem_cons_of_mem _ (ih b hb)
  | drop c _ _ ih => intro b hb; exact List.mem_cons_of_mem _ (ih b hb)

theorem visited_of_zero_free (s : List Nat) (hs : ∀ b ∈ s, b ≠ 0)
    (hlen : s.length < 4294967296) : visited s = s := by
  rw [visited, strlen_of_zero_free s hs, u32_of_lt hlen, List.take_length]

/-- C9, as the code has it: for `G, W ≥ 1`, a zero-free source `s` shorter than
`2 ^ 32` bytes and a source `s1` obtained from `s` by deleting bytes that are
neither letters nor digits, both runs return, with the same counter and the
same values (the array `hashes` is the same after both runs). -/
theorem non_content_transparency (P : Platform) (G W : Nat) (s s1 : List Nat)
    (hashes lines : Nat → Nat) (limit : Nat) (hG : 1 ≤ G) (hW : 1 ≤ W)
    (hlimit : limit < 4294967296) (hs : ∀ b ∈ s, b ≠ 0) (hlen : s.length < 4294967296)
    (hthin : Thinned s1 s) :
    ∃ r r1, winnowing P G W s hashes lines limit = .ok r
      ∧ winnowing P G W s1 hashes lines limit = .ok r1
      ∧ r1.counter = r.counter ∧ r1.hashes = r.hashes := by
  obtain ⟨r, hr, hcount, hrec, hframe⟩ :=
    winnowing_run P G W s hashes lines limit hG hW hlimit
  obtain ⟨r1, hr1, hcount1, hrec1, hframe1⟩ :=
    winnowing_run P G W s1 hashes lines limit hG hW hlimit
  have hv : visited s = s := visited_of_zero_free s hs hlen
  have hv1 : visited s1 = s1 :=
    visited_of_zero_free s1 (fun b hb => hs b (thinned_mem hthin b hb))
      (Nat.lt_of_le_of_lt (thinned_length hthin) hlen)
  rw [hv] at hcount hrec hframe
  rw [hv1, thinned_symbols hthin] at hcount1 hrec1 hframe1
  refine ⟨r, r1, hr, hr1, by rw [hcount, hcount1], ?_⟩
  funext j
  by_cases hj : j < (producers P G W limit (symbols s)).length
  · rw [(hrec j hj).1, (hrec1 j hj).1]
  · rw [(hframe j (by omega)).1, (hframe1 j (by omega)).1]

theorem thinned_nil_replicate (n : Nat) : Thinned [] (List.replicate n 32) := by
  induction n with
  | zero => exact Thinned.nil
  | succ n ih => rw [List.replicate_succ]; exact Thinned.drop 32 (by decide) ih

theorem winnowing_of_length_wrap (P : Platform) (G W : Nat) (s : List Nat)
    (hashes lines : Nat → Nat) (limit : Nat) (hs : ∀ b ∈ s, b ≠ 0)
    (hlen : u32 s.length = 0) :
    winnowing P G W s hashes lines limit
      = .ok { hashes := hashes, lines := lines, counter := 0 } := by
  simp only [winnowing, strlen_of_zero_free s hs, hlen, List.take_zero, scan]
  rfl

/-- C9, counterexample: the source of `2 ^ 32` bytes made of the letter `a`
and `2 ^ 32 - 1` spaces has a length that is zero as a `uint32_t`, so that no
byte is scanned and no record is written; with the spaces deleted the source
`a` gives one record. -/
theorem transparency_fails_on_long_source :
    Thinned [97] (97 :: List.replicate 4294967295 32)
    ∧ (∀ b ∈ 97 :: List.replicate 4294967295 32, b ≠ 0)
    ∧ records (winnowing standard 1 1 (97 :: List.replicate 4294967295 32)
        (fun _ => 0) (fun _ => 0) 1) = some []
    ∧ records (winnowing standard 1 1 [97] (fun _ => 0) (fun _ => 0) 1)
        = some [(1369097824, 1)] := by
  have hz : ∀ b ∈ 97 :: List.replicate 4294967295 32, b ≠ 0 := by
    intro b hb
    rcases List.mem_cons.mp hb with rfl | hb
    · decide
    · rw [(List.mem_replicate.mp hb).2]; decide
  refine ⟨Thinned.keep 97 (thinned_nil_replicate _), hz, ?_, by decide⟩
  rw [winnowing_of_length_wrap standard 1 1 _ _ _ 1 hz
    (by rw [List.length_cons, List.length_replicate]; rfl)]
  rfl

theorem non_content_transparency_witness :
    ∃ r r1, winnowing standard 3 2 [97, 32, 98, 99, 10, 100] (fun _ => 0) (fun _ => 0) 5 = .ok r
      ∧ winnowing standard 3 2 [97, 98, 99, 100] (fun _ => 0) (fun _ => 0) 5 = .ok r1
      ∧ r1.counter = r.counter ∧ r1.hashes = r.hashes :=
  non_content_transparency standard 3 2 [97, 32, 98, 99, 10, 100] [97, 98, 99, 100]
    (fun _ => 0) (fun _ => 0) 5 (by decide) (by decide) (by decide) (by decide) (by decide)
    (Thinned.keep 97 (Thinned.drop 32 (by decide) (Thinned.keep 98 (Thinned.keep 99
      (Thinned.drop 10 (by decide) (Thinned.keep 100 Thinned.nil))))))

/-! ### The limit and the first window -/

/-- C2, the failing input: with the sizes 30 and 64 and a limit of zero, the
source of 93 letters `a` gives one record, written at index 0 of the caller's
arrays. -/
theorem limit_zero_gives_one_record :
    records (winnowing standard 30 64 (List.replicate 93 97) (fun _ => 0) (fun _ => 0) 0)
      = some [(2066825570, 1)] := by
  rw [records_winnowing standard 30 64 _ _ _ 0 (by decide) (by decide) (by decide)]
  decide

/-- C4, the failing input: with the sizes 30 and 64 and a limit of 5, a source
of 93 letters and digits whose first gram has the checksum zero: the minimum of
its only window is zero, the initial value of `last`, and no record is
written. -/
theorem first_window_with_zero_minimum_is_dropped :
    (symbols zero_gram_source).length = 93
    ∧ gram_hash standard 30 (symbols zero_gram_source) 0 = 0
    ∧ records (winnowing standard 30 64 zero_gram_source (fun _ => 0) (fun _ => 0) 5)
        = some [] := by
  rw [records_winnowing standard 30 64 _ _ _ 5 (by decide) (by decide) (by decide)]
  decide

/-- C6, the failing input: with the sizes 30 and 64 and a limit of 5, the source
`zero_gram_source` followed by a newline byte and the letter `a`. Its first
full window is completed by the byte at position 92, the symbol `30 + 64 - 2`,
with no newline byte before it, so that a record of this window would carry
the line 1. The minimum of this window is zero, the initial value of `last`:
the window writes no record, and the first record written is the one of the
second window, with the line 2. -/
theorem first_record_is_not_of_first_window :
    normalize ((zero_gram_source ++ [10, 97]).getD 92 0) ≠ 0
    ∧ (symbols ((zero_gram_source ++ [10, 97]).take 92)).length = 30 + 64 - 2
    ∧ ((zero_gram_source ++ [10, 97]).take (92 + 1)).count 10 = 0
    ∧ window_min standard 30 64 (symbols (zero_gram_source ++ [10, 97])) 0 = 0
    ∧ records (winnowing standard 30 64 (zero_gram_source ++ [10, 97])
        (fun _ => 0) (fun _ => 0) 5) = some [(2580410647, 2)] := by
  refine ⟨by decide, by decide, by decide, by decide, ?_⟩
  rw [records_winnowing standard 30 64 _ _ _ 5 (by decide) (by decide) (by decide)]
  decide

/-! ### Instances of the theorems with hypotheses -/

/-- C1 on a source of two lines with a zero byte in it. -/
theorem records_are_window_images_witness :
    (1 ≤ 3 ∧ 1 ≤ 2 ∧ 5 < 4294967296) ∧
    ∃ (r : Records) (ks : List Nat),
      winnowing standard 3 2 [97, 98, 10, 99, 100, 101, 102, 103, 0, 104]
        (fun _ => 0) (fun _ => 0) 5 = .ok r
      ∧ ks.length = r.counter
      ∧ ks.Pairwise (fun a b => a < b)
      ∧ (∀ k ∈ ks, k < window_count 3 2
          (symbols [97, 98, 10, 99, 100, 101, 102, 103, 0, 104]))
      ∧ ∀ (i : Nat) (h : i < ks.length),
          r.hashes i = standard.rehash (window_min standard 3 2
            (symbols [97, 98, 10, 99, 100, 101, 102, 103, 0, 104]) (ks.get ⟨i, h⟩))
          ∧ (∃ t, t < 2 ∧ window_min standard 3 2
                (symbols [97, 98, 10, 99, 100, 101, 102, 103, 0, 104]) (ks.get ⟨i, h⟩)
              = gram_hash standard 3 (symbols [97, 98, 10, 99, 100, 101, 102, 103, 0, 104])
                  (ks.get ⟨i, h⟩ + t))
          ∧ ∀ t, t < 2 → window_min standard 3 2
                (symbols [97, 98, 10, 99, 100, 101, 102, 103, 0, 104]) (ks.get ⟨i, h⟩)
              ≤ gram_hash standard 3 (symbols [97, 98, 10, 99, 100, 101, 102, 103, 0, 104])
                  (ks.get ⟨i, h⟩ + t) :=
  ⟨by decide, records_are_window_images standard 3 2
    [97, 98, 10, 99, 100, 101, 102, 103, 0, 104] (fun _ => 0) (fun _ => 0) 5
    (by decide) (by decide) (by decide)⟩

/-- C3 on a source of two lines with a zero byte in it. -/
theorem dedup_of_consecutive_windows_witness :
    (1 ≤ 3 ∧ 1 ≤ 2 ∧ 5 < 4294967296) ∧
    ∃ (r : Records) (ks : List Nat),
      winnowing standard 3 2 [97, 98, 10, 99, 100, 101, 102, 103, 0, 104]
        (fun _ => 0) (fun _ => 0) 5 = .ok r
      ∧ ks.length = r.counter
      ∧ ks.Pairwise (fun a b => a < b)
      ∧ (∀ (i : Nat) (h : i < ks.length),
          r.hashes i = standard.rehash (window_min standard 3 2
            (symbols (visited [97, 98, 10, 99, 100, 101, 102, 103, 0, 104])) (ks.get ⟨i, h⟩)))
      ∧ (∀ k, 1 ≤ k →
          k < window_count 3 2 (symbols (visited [97, 98, 10, 99, 100, 101, 102, 103, 0, 104])) →
          ks.countP (fun j => decide (j < k)) < 5 →
          (k ∈ ks ↔ window_min standard 3 2
              (symbols (visited [97, 98, 10, 99, 100, 101, 102, 103, 0, 104])) k
            ≠ window_min standard 3 2
              (symbols (visited [97, 98, 10, 99, 100, 101, 102, 103, 0, 104])) (k - 1)))
      ∧ List.Chain' (fun a b => window_min standard 3 2
              (symbols (visited [97, 98, 10, 99, 100, 101, 102, 103, 0, 104])) a
            ≠ window_min standard 3 2
              (symbols (visited [97, 98, 10, 99, 100, 101, 102, 103, 0, 104])) b) ks :=
  ⟨by decide, dedup_of_consecutive_windows standard 3 2
    [97, 98, 10, 99, 100, 101, 102, 103, 0, 104] (fun _ => 0) (fun _ => 0) 5
    (by decide) (by decide) (by decide)⟩

/-- C5 on the bytes `A`, `0`, `z`, the zero byte and `{`. -/
theorem normalize_spec_witness :
    normalize 65 = 65 + 32 ∧ normalize 48 = 48 ∧ normalize 122 = 122 ∧ normalize 0 = 0
      ∧ normalize 123 = 0 :=
  ⟨(normalize_spec 65).2.1 (by decide), (normalize_spec 48).1 (by decide),
    (normalize_spec 122).1 (by decide), (normalize_spec 0).2.2.1 (by decide),
    (normalize_spec 123).2.2.1 (by decide)⟩

/-- The lines of the records on a source of two lines with a zero byte in it. -/
theorem record_lines_witness :
    (1 ≤ 3 ∧ 1 ≤ 2 ∧ 5 < 4294967296) ∧
    ∃ (r : Records) (ks : List Nat),
      winnowing standard 3 2 [97, 98, 10, 99, 100, 101, 102, 103, 0, 104]
        (fun _ => 0) (fun _ => 0) 5 = .ok r
      ∧ ks.length = r.counter
      ∧ ks.Pairwise (fun a b => a < b)
      ∧ (∀ k, k ∈ ks ↔
          k < window_count 3 2 (symbols (visited [97, 98, 10, 99, 100, 101, 102, 103, 0, 104]))
          ∧ (k = 0 ∨ ks.countP (fun j => decide (j < k)) < 5)
          ∧ window_min standard 3 2
                (symbols (visited [97, 98, 10, 99, 100, 101, 102, 103, 0, 104])) k
              ≠ (if k = 0 then 0 else window_min standard 3 2
                (symbols (visited [97, 98, 10, 99, 100, 101, 102, 103, 0, 104])) (k - 1)))
      ∧ ∀ (i : Nat) (h : i < ks.length),
          ∃ p, p < (visited [97, 98, 10, 99, 100, 101, 102, 103, 0, 104]).length
            ∧ normalize ([97, 98, 10, 99, 100, 101, 102, 103, 0, 104].getD p 0) ≠ 0
            ∧ (symbols ([97, 98, 10, 99, 100, 101, 102, 103, 0, 104].take p)).length
                = ks.get ⟨i, h⟩ + 3 + 2 - 2
            ∧ r.hashes i = standard.rehash (window_min standard 3 2
                (symbols (visited [97, 98, 10, 99, 100, 101, 102, 103, 0, 104]))
                (ks.get ⟨i, h⟩))
            ∧ r.lines i
                = 1 + ([97, 98, 10, 99, 100, 101, 102, 103, 0, 104].take (p + 1)).count 10 :=
  ⟨by decide, record_lines standard 3 2
    [97, 98, 10, 99, 100, 101, 102, 103, 0, 104] (fun _ => 0) (fun _ => 0) 5
    (by decide) (by decide) (by decide)⟩

/-- C7 on the source `ab`, a zero byte, `c`. -/
theorem zero_byte_truncates_witness :
    (∀ b ∈ [97, 98], b ≠ 0) ∧
    winnowing standard 1 1 ([97, 98] ++ 0 :: [99]) (fun _ => 0) (fun _ => 0) 5
      = winnowing standard 1 1 [97, 98] (fun _ => 0) (fun _ => 0) 5 :=
  ⟨by decide, zero_byte_truncates standard 1 1 [97, 98] [99] (fun _ => 0) (fun _ => 0) 5
    (by decide)⟩

/-! ## Further claims

### The scan of the window -/

/-- C15: on a window buffer of `W ≥ 1` entries, all written and all 32-bit
values, `smaller_hash` returns, and its result is an entry of the buffer that
is at most every entry. -/
theorem smaller_hash_least (W : Nat) (l : List Nat) (hW : 1 ≤ W) (hl : l.length = W)
    (h32 : ∀ v ∈ l, v < 4294967296) :
    ∃ m, smaller_hash W (l.map some) = .ok m ∧ m ∈ l ∧ ∀ v ∈ l, m ≤ v := by
  subst hl
  have hne : l ≠ [] := by
    intro h; rw [h] at hW; simp at hW
  have hle : ∀ v ∈ l, v ≤ MAX_UINT32 := by
    intro v hv
    have := h32 v hv
    simp only [MAX_UINT32]; omega
  obtain ⟨a, t, hat⟩ := List.exists_cons_of_ne_nil hne
  have hsome : l.min? = some (least_from MAX_UINT32 l) := by
    rw [least_from_eq_min l hne hle, hat]
    simp [List.min?]
  obtain ⟨hmem, hmin⟩ := List.min?_eq_some_iff'.mp hsome
  exact ⟨_, smaller_hash_full l, hmem, hmin⟩

/-- C15 on a window whose entries all are `0xFFFFFFFF`. -/
theorem smaller_hash_least_witness :
    (1 ≤ 3 ∧ [4294967295, 4294967295, 4294967295].length = 3
      ∧ ∀ v ∈ [4294967295, 4294967295, 4294967295], v < 4294967296) ∧
    ∃ m, smaller_hash 3 ([4294967295, 4294967295, 4294967295].map some) = .ok m
      ∧ m ∈ [4294967295, 4294967295, 4294967295]
      ∧ ∀ v ∈ [4294967295, 4294967295, 4294967295], m ≤ v :=
  ⟨by decide, smaller_hash_least 3 [4294967295, 4294967295, 4294967295]
    (by decide) (by decide) (by decide)⟩

/-! ### Short sources and the number of records -/

theorem window_count_visited_le (G W : Nat) (src : List Nat) :
    window_count G W (symbols (visited src)) ≤ window_count G W (symbols src) := by
  obtain ⟨T, hT⟩ := symbols_visited src
  rw [hT]
  exact window_count_mono _ _ _ _

theorem winnowing_of_no_window (P : Platform) (G W : Nat) (src : List Nat)
    (hashes lines : Nat → Nat) (limit : Nat) (hG : 1 ≤ G) (hW : 1 ≤ W)
    (hN : window_count G W (symbols (visited src)) = 0) :
    winnowing P G W src hashes lines limit
      = .ok { hashes := hashes, lines := lines, counter := 0 } := by
  rw [winnowing_eq_emit P G W src hashes lines limit hG hW]
  have h1 := slide_eq G P.crc hG (sym_events 1 (src.take (u32 (strlen src)))) [] (by simpa using hG)
  have h2 := slide_eq W (least_from MAX_UINT32) hW
    (windows_of G P.crc (sym_events 1 (src.take (u32 (strlen src))))) [] (by simpa using hW)
  simp only [List.map_nil, List.nil_append] at h1 h2
  have h3 := mins_eq_map P G W hG hW (visited src)
  rw [hN] at h3
  simp only [visited] at h3
  rw [h1, h2, h3]
  rfl

/-- C12: for `G, W ≥ 1` and every limit, a source with fewer than `G + W - 1`
letters and digits (in particular with fewer than `G`) gives no record: the run
returns zero and leaves the caller's arrays as they were. -/
theorem short_source_gives_nothing (P : Platform) (G W : Nat) (src : List Nat)
    (hashes lines : Nat → Nat) (limit : Nat) (hG : 1 ≤ G) (hW : 1 ≤ W)
    (hshort : (symbols src).length < G ∨ (symbols src).length < G + W - 1) :
    winnowing P G W src hashes lines limit
      = .ok { hashes := hashes, lines := lines, counter := 0 } := by
  apply winnowing_of_no_window P G W src hashes lines limit hG hW
  have hle := window_count_visited_le G W src
  have h0 : window_count G W (symbols src) = 0 := by
    simp only [window_count]
    omega
  omega

/-- C12 on the empty source, with the sizes 30 and 64. -/
theorem short_source_gives_nothing_witness :
    (1 ≤ 30 ∧ 1 ≤ 64 ∧ ((symbols []).length < 30 ∨ (symbols []).length < 30 + 64 - 1)) ∧
    winnowing standard 30 64 [] (fun _ => 0) (fun _ => 0) 5
      = .ok { hashes := fun _ => 0, lines := fun _ => 0, counter := 0 } :=
  ⟨by decide, short_source_gives_nothing standard 30 64 [] (fun _ => 0) (fun _ => 0) 5
    (by decide) (by decide) (by decide)⟩

theorem producers_length_le_count (P : Platform) (G W limit : Nat) (S : List Nat) :
    (producers P G W limit S).length ≤ window_count G W S := by
  unfold producers
  refine (List.length_take_le' _ _).trans ((List.length_filter_le _ _).trans ?_)
  rw [List.length_range]
  split <;> omega

/-- C18: for `G, W ≥ 1` the run returns, and the number of its records is at
most the number of full windows of the source, `n + 2 - G - W` cut off at zero,
where `n` is the number of letters and digits of the source. -/
theorem counter_le_window_count (P : Platform) (G W : Nat) (src : List Nat)
    (hashes lines : Nat → Nat) (limit : Nat) (hG : 1 ≤ G) (hW : 1 ≤ W)
    (hlimit : limit < 4294967296) :
    ∃ r, winnowing P G W src hashes lines limit = .ok r
      ∧ r.counter ≤ (symbols src).length + 2 - G - W := by
  obtain ⟨r, hr, hcount, _, _⟩ := winnowing_run P G W src hashes lines limit hG hW hlimit
  refine ⟨r, hr, ?_⟩
  have h1 := producers_length_le_count P G W limit (symbols (visited src))
  have h2 := window_count_visited_le G W src
  simp only [window_count] at h1 h2
  omega

/-- C18 on a source of eight letters with the sizes 3 and 2. -/
theorem counter_le_window_count_witness :
    (1 ≤ 3 ∧ 1 ≤ 2 ∧ 5 < 4294967296) ∧
    ∃ r, winnowing standard 3 2 [97, 98, 99, 100, 101, 102, 103, 104]
        (fun _ => 0) (fun _ => 0) 5 = .ok r
      ∧ r.counter ≤ (symbols [97, 98, 99, 100, 101, 102, 103, 104]).length + 2 - 3 - 2 :=
  ⟨by decide, counter_le_window_count standard 3 2 [97, 98, 99, 100, 101, 102, 103, 104]
    (fun _ => 0) (fun _ => 0) 5 (by decide) (by decide) (by decide)⟩

/-! ### The limit cuts the output, and nothing else -/

theorem producers_take (P : Platform) (G W L U : Nat) (S : List Nat) (hL : 1 ≤ L)
    (hLU : L ≤ U) :
    producers P G W L S = (producers P G W U S).take L := by
  have h0 : L ≠ 0 := by omega
  have h1 : U ≠ 0 := by omega
  have hmax : max L 1 = L := by omega
  have hmax1 : max U 1 = U := by omega
  unfold producers
  simp only [h0, h1, if_false, hmax, hmax1, List.take_take, Nat.min_eq_left hLU]

theorem producers_of_not_reached (P : Platform) (G W U V : Nat) (S : List Nat) (hU : 1 ≤ U)
    (hUV : U ≤ V) (h : (producers P G W U S).length < U) :
    producers P G W V S = producers P G W U S := by
  have hV := producers_take P G W U V S hU hUV
  rw [hV, List.length_take] at h
  rw [hV, List.take_of_length_le (by omega)]

/-- C14: for `G, W ≥ 1` and limits `1 ≤ L ≤ U` (`U` up to `4294967295`, the
largest limit there is), the records of the run with limit `L` are the first
`L` records of the run with limit `U`, as many as there are: the counter is
`min L N` where `N` is the counter of the run with limit `U`. A run that ends
with its counter below its limit `U` is an unbounded run: every larger limit
gives the same records. -/
theorem early_stop_is_truncation (P : Platform) (G W : Nat) (src : List Nat)
    (hashes lines : Nat → Nat) (L U : Nat) (hG : 1 ≤ G) (hW : 1 ≤ W) (hL : 1 ≤ L)
    (hLU : L ≤ U) (hU : U < 4294967296) :
    ∃ rL rU, winnowing P G W src hashes lines L = .ok rL
      ∧ winnowing P G W src hashes lines U = .ok rU
      ∧ rL.counter = min L rU.counter
      ∧ records (winnowing P G W src hashes lines L)
          = (records (winnowing P G W src hashes lines U)).map (List.take L)
      ∧ (rU.counter < U → ∀ V, U ≤ V → V < 4294967296 →
          records (winnowing P G W src hashes lines V)
            = records (winnowing P G W src hashes lines U)) := by
  have hLlt : L < 4294967296 := by omega
  obtain ⟨rL, hrL, hcL, _, _⟩ := winnowing_run P G W src hashes lines L hG hW hLlt
  obtain ⟨rU, hrU, hcU, _, _⟩ := winnowing_run P G W src hashes lines U hG hW hU
  have htake := producers_take P G W L U (symbols (visited src)) hL hLU
  refine ⟨rL, rU, hrL, hrU, ?_, ?_, ?_⟩
  · rw [hcL, hcU, htake, List.length_take]
  · rw [records_winnowing P G W src hashes lines L hG hW hLlt,
      records_winnowing P G W src hashes lines U hG hW hU, htake]
    simp only [Option.map_some', List.map_take]
  · intro hlt V hUV hV
    rw [hcU] at hlt
    rw [records_winnowing P G W src hashes lines V hG hW hV,
      records_winnowing P G W src hashes lines U hG hW hU,
      producers_of_not_reached P G W U V _ (by omega) hUV hlt]

/-- C14 on a source of eight letters, with the limits 2 and `4294967295`. -/
theorem early_stop_is_truncation_witness :
    (1 ≤ 3 ∧ 1 ≤ 2 ∧ 1 ≤ 2 ∧ 2 ≤ 4294967295 ∧ 4294967295 < 4294967296) ∧
    ∃ rL rU, winnowing standard 3 2 [97, 98, 99, 100, 101, 102, 103, 104]
        (fun _ => 0) (fun _ => 0) 2 = .ok rL
      ∧ winnowing standard 3 2 [97, 98, 99, 100, 101, 102, 103, 104]
        (fun _ => 0) (fun _ => 0) 4294967295 = .ok rU
      ∧ rL.counter = min 2 rU.counter
      ∧ records (winnowing standard 3 2 [97, 98, 99, 100, 101, 102, 103, 104]
          (fun _ => 0) (fun _ => 0) 2)
          = (records (winnowing standard 3 2 [97, 98, 99, 100, 101, 102, 103, 104]
              (fun _ => 0) (fun _ => 0) 4294967295)).map (List.take 2)
      ∧ (rU.counter < 4294967295 → ∀ V, 4294967295 ≤ V → V < 4294967296 →
          records (winnowing standard 3 2 [97, 98, 99, 100, 101, 102, 103, 104]
              (fun _ => 0) (fun _ => 0) V)
            = records (winnowing standard 3 2 [97, 98, 99, 100, 101, 102, 103, 104]
              (fun _ => 0) (fun _ => 0) 4294967295)) :=
  ⟨by decide, early_stop_is_truncation standard 3 2 [97, 98, 99, 100, 101, 102, 103, 104]
    (fun _ => 0) (fun _ => 0) 2 4294967295 (by decide) (by decide) (by decide) (by decide)
    (by decide)⟩

/-! ### Lines do not go down -/

theorem symbols_take_length_mono (B : List Nat) (a b : Nat) (h : a ≤ b) :
    (symbols (B.take a)).length ≤ (symbols (B.take b)).length := by
  have h1 : B.take a = (B.take b).take a := by
    rw [List.take_take, Nat.min_eq_left h]
  have h2 : B.take b = (B.take b).take a ++ (B.take b).drop a := (List.take_append_drop _ _).symm
  rw [h2, symbols_append, ← h1, List.length_append]
  omega

theorem symbols_take_succ (B : List Nat) (p : Nat) (hp : p < B.length)
    (hnz : normalize (B.getD p 0) ≠ 0) :
    (symbols (B.take (p + 1))).length = (symbols (B.take p)).length + 1 := by
  rw [List.getD_eq_getElem _ _ hp] at hnz
  rw [List.take_succ, List.getElem?_eq_getElem hp, symbols_append]
  simp [symbols, hnz]

theorem window_line_mono (G W : Nat) (hG : 1 ≤ G) (hW : 1 ≤ W) (B : List Nat)
    (hB : B.length < 4294967296) (k k1 : Nat) (hk : k ≤ k1)
    (hk1 : k1 < window_count G W (symbols B)) :
    window_line G W B k ≤ window_line G W B k1 := by
  obtain ⟨p, hp, hnz, hsym, hline⟩ := window_line_spec G W hG hW B hB k (by omega)
  obtain ⟨p1, hp1, hnz1, hsym1, hline1⟩ := window_line_spec G W hG hW B hB k1 hk1
  have hpp : p ≤ p1 := by
    by_contra hcon
    have h1 := symbols_take_length_mono B (p1 + 1) p (by omega)
    have h2 := symbols_take_succ B p1 hp1 hnz1
    omega
  have hsub : (B.take (p + 1)).Sublist (B.take (p1 + 1)) := by
    have : B.take (p + 1) = (B.take (p1 + 1)).take (p + 1) := by
      rw [List.take_take, Nat.min_eq_left (by omega)]
    rw [this]
    exact List.take_sublist _ _
  have := hsub.count_le 10
  omega

/-- C11: for `G, W ≥ 1` the run returns and the lines of its records do not
go down: `lines[i] ≤ lines[i + 1]` whenever `i + 1` is below the counter. The
line counter does not wrap before a record, so nothing is assumed of it. -/
theorem lines_are_monotone (P : Platform) (G W : Nat) (src : List Nat)
    (hashes lines : Nat → Nat) (limit : Nat) (hG : 1 ≤ G) (hW : 1 ≤ W)
    (hlimit : limit < 4294967296) :
    ∃ r, winnowing P G W src hashes lines limit = .ok r
      ∧ ∀ i, i + 1 < r.counter → r.lines i ≤ r.lines (i + 1) := by
  obtain ⟨r, hr, hcount, hrec, _⟩ := winnowing_run P G W src hashes lines limit hG hW hlimit
  refine ⟨r, hr, ?_⟩
  intro i hi
  rw [hcount] at hi
  have hlt := (List.pairwise_iff_get.mp (producers_pairwise P G W limit (symbols (visited src))))
    ⟨i, by omega⟩ ⟨i + 1, hi⟩ (by simp)
  rw [(hrec i (by omega)).2, (hrec (i + 1) hi).2]
  exact window_line_mono G W hG hW (visited src) (visited_length_lt src) _ _ (Nat.le_of_lt hlt)
    (producers_lt P G W limit _ _ (List.get_mem _ (i + 1) hi))

/-- C11 on a source of three lines. -/
theorem lines_are_monotone_witness :
    (1 ≤ 2 ∧ 1 ≤ 1 ∧ 5 < 4294967296) ∧
    ∃ r, winnowing standard 2 1 [97, 98, 10, 99, 10, 100] (fun _ => 0) (fun _ => 0) 5 = .ok r
      ∧ ∀ i, i + 1 < r.counter → r.lines i ≤ r.lines (i + 1) :=
  ⟨by decide, lines_are_monotone standard 2 1 [97, 98, 10, 99, 10, 100]
    (fun _ => 0) (fun _ => 0) 5 (by decide) (by decide) (by decide)⟩

/-! ### A source of one repeated character -/

theorem symbols_replicate (n c : Nat) (hc : normalize c ≠ 0) :
    symbols (List.replicate n c) = List.replicate n (normalize c) := by
  simp [symbols, List.map_replicate, List.filter_replicate, hc]

theorem gram_hash_replicate (P : Platform) (G n b j : Nat) (h : j + G ≤ n) :
    gram_hash P G (List.replicate n b) j = P.crc (List.replicate G b) := by
  unfold gram_hash
  rw [List.drop_replicate, List.take_replicate, Nat.min_eq_left (by omega)]

theorem window_min_replicate (P : Platform) (G W n b k : Nat) (hW : 1 ≤ W)
    (hk : k < window_count G W (List.replicate n b)) :
    window_min P G W (List.replicate n b) k = P.crc (List.replicate G b) := by
  simp only [window_count, List.length_replicate] at hk
  obtain ⟨t, ht, heq⟩ := (window_min_least P G W hW (List.replicate n b) k).1
  rw [heq, gram_hash_replicate P G n b (k + t) (by omega)]

theorem producers_replicate (P : Platform) (G W limit n b : Nat) (hW : 1 ≤ W)
    (hn : 1 ≤ window_count G W (List.replicate n b))
    (hcrc : P.crc (List.replicate G b) ≠ 0) :
    producers P G W limit (List.replicate n b) = [0] := by
  obtain ⟨d, hd⟩ : ∃ d, (if limit = 0 then min 1 (window_count G W (List.replicate n b))
      else window_count G W (List.replicate n b)) = d + 1 := by
    by_cases h0 : limit = 0
    · exact ⟨0, by rw [if_pos h0]; omega⟩
    · exact ⟨window_count G W (List.replicate n b) - 1, by rw [if_neg h0]; omega⟩
  have hdle : d + 1 ≤ window_count G W (List.replicate n b) := by
    rw [← hd]; split <;> omega
  obtain ⟨e, he⟩ : ∃ e, max limit 1 = e + 1 := ⟨max limit 1 - 1, by omega⟩
  have h0 : window_min P G W (List.replicate n b) 0 ≠ 0 := by
    rw [window_min_replicate P G W n b 0 hW (by omega)]; exact hcrc
  have htail : ((List.range d).map Nat.succ).filter
      (fun k => decide (window_min P G W (List.replicate n b) k
        ≠ if k = 0 then 0 else window_min P G W (List.replicate n b) (k - 1))) = [] := by
    rw [List.filter_eq_nil_iff]
    intro a ha
    obtain ⟨j, hj, rfl⟩ := List.mem_map.mp ha
    have hj' : j < d := List.mem_range.mp hj
    rw [Nat.succ_eq_add_one, if_neg (Nat.succ_ne_zero j), Nat.add_sub_cancel,
      window_min_replicate P G W n b (j + 1) hW (by omega),
      window_min_replicate P G W n b j hW (by omega)]
    simp
  unfold producers
  rw [hd, he, List.range_succ_eq_map, List.filter_cons, htail]
  simp [h0]

theorem window_line_replicate (G W n c : Nat) (hG : 1 ≤ G) (hW : 1 ≤ W)
    (hc : normalize c ≠ 0) (hlen : n < 4294967296)
    (hn : 1 ≤ window_count G W (symbols (List.replicate n c))) :
    window_line G W (List.replicate n c) 0 = 1 := by
  have h10 : c ≠ 10 := fun h => hc (h ▸ normalize_newline)
  obtain ⟨p, _, _, _, hline⟩ := window_line_spec G W hG hW (List.replicate n c)
    (by simpa using hlen) 0 (by omega)
  rw [hline, List.take_replicate, List.count_replicate]
  simp [h10]

/-- C13, as the code has it: for `G, W ≥ 1`, a source made of `n` copies of one
letter or digit, with `G + W - 1 ≤ n < 2 ^ 32`, has all its window minima equal
to the checksum of the gram of `G` copies; when that checksum is not zero the
run gives exactly one record, with the line 1. -/
theorem repeated_character_gives_one_record (P : Platform) (G W n c : Nat)
    (hashes lines : Nat → Nat) (limit : Nat) (hG : 1 ≤ G) (hW : 1 ≤ W)
    (hlimit : limit < 4294967296) (hc : normalize c ≠ 0) (hn : G + W - 1 ≤ n)
    (hlen : n < 4294967296) (hcrc : P.crc (List.replicate G (normalize c)) ≠ 0) :
    (∀ k, k < window_count G W (symbols (List.replicate n c)) →
      window_min P G W (symbols (List.replicate n c)) k
        = P.crc (List.replicate G (normalize c)))
    ∧ records (winnowing P G W (List.replicate n c) hashes lines limit)
      = some [(P.rehash (P.crc (List.replicate G (normalize c))), 1)] := by
  have hc0 : c ≠ 0 := fun h => hc (by rw [h]; decide)
  have hv : visited (List.replicate n c) = List.replicate n c :=
    visited_of_zero_free _ (fun b hb => by rw [(List.mem_replicate.mp hb).2]; exact hc0)
      (by simpa using hlen)
  have hcount : 1 ≤ window_count G W (symbols (List.replicate n c)) := by
    simp only [window_count, symbols_replicate n c hc, List.length_replicate]
    omega
  constructor
  · intro k hk
    rw [symbols_replicate n c hc] at hk ⊢
    exact window_min_replicate P G W n _ k hW hk
  · rw [records_winnowing P G W _ hashes lines limit hG hW hlimit, hv]
    have hline := window_line_replicate G W n c hG hW hc hlen hcount
    rw [symbols_replicate n c hc] at hcount ⊢
    rw [producers_replicate P G W limit n _ hW hcount hcrc]
    simp only [List.map_cons, List.map_nil, window_event, symbols_replicate n c hc, hline,
      window_min_replicate P G W n _ 0 hW hcount]

/-- C13, counterexample: with the sizes 1 and 1 the source of `2 ^ 32` letters
`a` has a length that is zero as a `uint32_t`: no byte is scanned and no record
is written. -/
theorem repeated_character_fails_on_long_source :
    normalize 97 ≠ 0 ∧ 1 + 1 - 1 ≤ 4294967296
    ∧ records (winnowing standard 1 1 (List.replicate 4294967296 97)
        (fun _ => 0) (fun _ => 0) 1) = some [] := by
  refine ⟨by decide, by decide, ?_⟩
  rw [winnowing_of_length_wrap standard 1 1 _ _ _ 1
    (fun b hb => by rw [(List.mem_replicate.mp hb).2]; decide)
    (by rw [List.length_replicate]; rfl)]
  rfl

/-- C13 on the source `aaaaaa` with the sizes 3 and 2. -/
theorem repeated_character_gives_one_record_witness :
    records (winnowing standard 3 2 (List.replicate 6 97) (fun _ => 0) (fun _ => 0) 5)
      = some [(3841545288, 1)] :=
  ((repeated_character_gives_one_record standard 3 2 6 97 (fun _ => 0) (fun _ => 0) 5
    (by decide) (by decide) (by decide) (by decide) (by decide) (by decide) (by decide)).2).trans
    (by decide)

/-! ### The states of a run -/

theorem step_summary (P : Platform) (G W limit : Nat) (hG : 1 ≤ G) (hW : 1 ≤ W) (c : Nat)
    (s : State) (g w : List Nat) (hg : Pending G s.gram s.gram_ptr g)
    (hw : Pending W s.window s.window_ptr w) :
    ∃ brk s1, step P G W limit c s = .ok (brk, s1)
      ∧ (brk = false → ∃ g1 w1, Pending G s1.gram s1.gram_ptr g1
          ∧ Pending W s1.window s1.window_ptr w1)
      ∧ ((brk = false ∧ s1.out = s.out)
        ∨ ∃ hash line, s1.out = (add_hash P hash line s.out s.last).2
            ∧ (brk = true ↔ limit ≤ s1.out.counter)) := by
  obtain ⟨brk, s1, hstep, hres⟩ := step_ok P G W limit hG hW c s g w hg hw _ rfl
  refine ⟨brk, s1, hstep, ?_⟩
  by_cases hz : normalize c = 0
  · rw [if_pos hz] at hres
    obtain ⟨hb, _, _, hout, hg1, hw1⟩ := hres
    exact ⟨fun _ => ⟨_, _, hg1, hw1⟩, Or.inl ⟨hb, hout⟩⟩
  · rw [if_neg hz] at hres
    by_cases hfull : G ≤ (g ++ [normalize c]).length
    · rw [if_pos hfull] at hres
      by_cases hwfull : W ≤ (w ++ [P.crc (g ++ [normalize c])]).length
      · rw [if_pos hwfull] at hres
        obtain ⟨hout, hbrk, hcont⟩ := hres
        exact ⟨fun hb => ⟨_, _, (hcont hb).2.2.1, (hcont hb).2.2.2⟩,
          Or.inr ⟨_, _, hout, hbrk⟩⟩
      · rw [if_neg hwfull] at hres
        obtain ⟨hb, _, _, hout, hg1, hw1⟩ := hres
        exact ⟨fun _ => ⟨_, _, hg1, hw1⟩, Or.inl ⟨hb, hout⟩⟩
    · rw [if_neg hfull] at hres
      obtain ⟨hb, _, _, hout, hg1, hw1⟩ := hres
      exact ⟨fun _ => ⟨_, _, hg1, hw1⟩, Or.inl ⟨hb, hout⟩⟩

theorem starts_pending (P : Platform) (G W limit : Nat) (hG : 1 ≤ G) (hW : 1 ≤ W)
    (bytes : List Nat) : ∀ (s : State) (g w : List Nat),
    Pending G s.gram s.gram_ptr g → Pending W s.window s.window_ptr w →
    ∀ s1 ∈ starts P G W limit bytes s,
      ∃ g1 w1, Pending G s1.gram s1.gram_ptr g1 ∧ Pending W s1.window s1.window_ptr w1 := by
  induction bytes with
  | nil => intro s g w _ _ s1 h1; simp [starts] at h1
  | cons c rest ih =>
    intro s g w hg hw s1 h1
    obtain ⟨brk, s2, hstep, hpend, _⟩ := step_summary P G W limit hG hW c s g w hg hw
    simp only [starts, hstep, List.mem_cons] at h1
    rcases h1 with rfl | h1
    · exact ⟨g, w, hg, hw⟩
    · cases brk with
      | true => simp at h1
      | false =>
        obtain ⟨g2, w2, hg2, hw2⟩ := hpend rfl
        exact ih s2 g2 w2 hg2 hw2 s1 h1

theorem pending_bounds {n : Nat} {buf : Buffer} {ptr : Nat} {l : List Nat}
    (h : Pending n buf ptr l) :
    buf.length = n ∧ ptr ≤ n - 1 ∧ ∀ i, i < ptr → ∃ v, buf.get? i = some (some v) := by
  obtain ⟨hp, hlt, fill, hb, hlen⟩ := h
  refine ⟨by rw [hb]; simpa using hlen, by omega, ?_⟩
  intro i hi
  rw [hp] at hi
  refine ⟨l.get ⟨i, hi⟩, ?_⟩
  rw [hb, List.get?_eq_getElem?, List.getElem?_append_left (by simpa using hi)]
  simp [List.getElem?_eq_getElem hi]

/-- C17: for `G, W ≥ 1`, every source and every limit, the run hits no
undefined behaviour (no access outside a buffer, no read of a slot that was
never written), and in every state in which an iteration of the loop starts
the gram buffer has `G` slots and the window buffer `W`, `gram_ptr ≤ G - 1`,
`window_ptr ≤ W - 1`, and the slots below the two pointers are written. -/
theorem buffer_indices_in_bounds (P : Platform) (G W : Nat) (src : List Nat)
    (hashes lines : Nat → Nat) (limit : Nat) (hG : 1 ≤ G) (hW : 1 ≤ W) :
    fault (winnowing P G W src hashes lines limit) = none
    ∧ ∀ s ∈ starts P G W limit (visited src) (initial G W hashes lines),
        s.gram.length = G ∧ s.window.length = W
        ∧ s.gram_ptr ≤ G - 1 ∧ s.window_ptr ≤ W - 1
        ∧ (∀ i, i < s.gram_ptr → ∃ v, s.gram.get? i = some (some v))
        ∧ (∀ i, i < s.window_ptr → ∃ v, s.window.get? i = some (some v)) := by
  constructor
  · rw [winnowing_eq_emit P G W src hashes lines limit hG hW]
    rfl
  · intro s hs
    obtain ⟨g, w, hg, hw⟩ := starts_pending P G W limit hG hW (visited src)
      (initial G W hashes lines) [] [] (pending_malloc G hG) (pending_malloc W hW) s hs
    obtain ⟨h1, h2, h3⟩ := pending_bounds hg
    obtain ⟨h4, h5, h6⟩ := pending_bounds hw
    exact ⟨h1, h4, h2, h5, h3, h6⟩

/-- C17 on a source of eight letters with the sizes 3 and 2. -/
theorem buffer_indices_in_bounds_witness :
    (1 ≤ 3 ∧ 1 ≤ 2) ∧
    (fault (winnowing standard 3 2 [97, 98, 99, 100, 101, 102, 103, 104]
        (fun _ => 0) (fun _ => 0) 5) = none
    ∧ ∀ s ∈ starts standard 3 2 5 (visited [97, 98, 99, 100, 101, 102, 103, 104])
          (initial 3 2 (fun _ => 0) (fun _ => 0)),
        s.gram.length = 3 ∧ s.window.length = 2
        ∧ s.gram_ptr ≤ 3 - 1 ∧ s.window_ptr ≤ 2 - 1
        ∧ (∀ i, i < s.gram_ptr → ∃ v, s.gram.get? i = some (some v))
        ∧ (∀ i, i < s.window_ptr → ∃ v, s.window.get? i = some (some v))) :=
  ⟨by decide, buffer_indices_in_bounds standard 3 2 [97, 98, 99, 100, 101, 102, 103, 104]
    (fun _ => 0) (fun _ => 0) 5 (by decide) (by decide)⟩

/-! ### The writes into the caller's arrays -/

theorem extends_refl (a : Records) : Extends a a :=
  ⟨Nat.le_refl _, fun _ _ => ⟨rfl, rfl⟩, fun _ _ => ⟨rfl, rfl⟩⟩

theorem extends_trans {a b c : Records} (h1 : Extends a b) (h2 : Extends b c) :
    Extends a c := by
  obtain ⟨h1c, h1l, h1h⟩ := h1
  obtain ⟨h2c, h2l, h2h⟩ := h2
  refine ⟨by omega, ?_, ?_⟩
  · intro i hi
    have := h2l i (by omega)
    have := h1l i hi
    constructor
    · rw [(h2l i (by omega)).1, (h1l i hi).1]
    · rw [(h2l i (by omega)).2, (h1l i hi).2]
  · intro j hj
    constructor
    · rw [(h2h j hj).1, (h1h j (by omega)).1]
    · rw [(h2h j hj).2, (h1h j (by omega)).2]

theorem extends_of_wrote {a b : Records} (h : Wrote a b) : Extends a b := by
  obtain ⟨hc, hw⟩ := h
  exact ⟨by omega, fun i hi => hw i (by omega), fun j hj => hw j (by omega)⟩

theorem add_hash_wrote (P : Platform) (hash line : Nat) (out : Records) (last : Nat)
    (hc : out.counter + 1 < 4294967296) :
    (add_hash P hash line out last).2 = out ∨ Wrote out (add_hash P hash line out last).2 := by
  unfold add_hash
  by_cases h : hash = last
  · left; simp [h]
  · right
    simp only [ne_eq, h, not_false_eq_true, if_true, Wrote, u32_of_lt hc, true_and]
    intro j hj
    exact ⟨Function.update_noteq hj _ _, Function.update_noteq hj _ _⟩

theorem scan_writes (P : Platform) (G W limit : Nat) (hG : 1 ≤ G) (hW : 1 ≤ W)
    (hlimit : limit < 4294967296) (bytes : List Nat) : ∀ (s : State) (g w : List Nat),
    Pending G s.gram s.gram_ptr g → Pending W s.window s.window_ptr w →
    (s.out.counter < limit ∨ s.out.counter = 0) →
    ∃ sf, scan P G W limit bytes s = .ok sf
      ∧ (starts P G W limit bytes s ++ [sf]).head? = some s
      ∧ List.Chain' (fun a b : State => b.out = a.out ∨ Wrote a.out b.out)
          (starts P G W limit bytes s ++ [sf])
      ∧ ∀ s1 ∈ starts P G W limit bytes s ++ [sf],
          Extends s.out s1.out ∧ Extends s1.out sf.out := by
  induction bytes with
  | nil =>
    intro s g w _ _ _
    refine ⟨s, rfl, rfl, by simp [starts], ?_⟩
    intro s1 h1
    simp only [starts, List.nil_append, List.mem_singleton] at h1
    rw [h1]
    exact ⟨extends_refl _, extends_refl _⟩
  | cons c rest ih =>
    intro s g w hg hw hinv
    obtain ⟨brk, s1, hstep, hpend, hout⟩ := step_summary P G W limit hG hW c s g w hg hw
    have hrel : s1.out = s.out ∨ Wrote s.out s1.out := by
      rcases hout with ⟨_, h⟩ | ⟨hash, line, h, _⟩
      · exact Or.inl h
      · rw [h]; exact add_hash_wrote P hash line s.out s.last (by omega)
    have hext : Extends s.out s1.out := by
      rcases hrel with h | h
      · rw [h]; exact extends_refl _
      · exact extends_of_wrote h
    cases brk with
    | true =>
      refine ⟨s1, by simp only [scan, hstep], by simp [starts], ?_, ?_⟩
      · simp only [starts, hstep, List.cons_append, List.nil_append]
        exact List.chain'_pair.mpr hrel
      · intro s2 h2
        simp only [starts, hstep, List.cons_append, List.nil_append, List.mem_cons,
          List.mem_singleton, List.not_mem_nil, or_false] at h2
        rcases h2 with rfl | rfl
        · exact ⟨extends_refl _, hext⟩
        · exact ⟨hext, extends_refl _⟩
    | false =>
      obtain ⟨g1, w1, hg1, hw1⟩ := hpend rfl
      have hinv1 : s1.out.counter < limit ∨ s1.out.counter = 0 := by
        rcases hout with ⟨_, h⟩ | ⟨_, _, _, hb⟩
        · rw [h]; exact hinv
        · left
          by_contra hcon
          have := hb.mpr (by omega)
          exact Bool.noConfusion this
      obtain ⟨sf, hscan, hhead, hchain, hall⟩ := ih s1 g1 w1 hg1 hw1 hinv1
      refine ⟨sf, by simp only [scan, hstep, hscan], by simp [starts], ?_, ?_⟩
      · simp only [starts, hstep, List.cons_append]
        rw [List.chain'_cons']
        refine ⟨?_, hchain⟩
        intro y hy
        rw [hhead] at hy
        rw [← Option.some.inj hy]
        exact hrel
      · intro s2 h2
        simp only [starts, hstep, List.cons_append, List.mem_cons] at h2
        have hs1f : Extends s1.out sf.out :=
          (hall s1 (List.mem_of_mem_head? hhead)).2
        rcases h2 with rfl | h2
        · exact ⟨extends_refl _, extends_trans hext hs1f⟩
        · exact ⟨extends_trans hext (hall s2 h2).1, (hall s2 h2).2⟩

/-- C16: for `G, W ≥ 1` the run returns, with the arrays and the counter of
the state `sf` in which the loop is left. Every slot at an index from the
returned counter on holds its original value. Along the states in which the
iterations start, followed by `sf`, the first state has the counter zero and
the original arrays, and from each state to the next either nothing of the
arrays and the counter changes or exactly the slot at the counter is written
and the counter goes up by one: the slots are written at the indices
`0, 1, ...` in this order, once each, and the returned counter is the number of
records written. Hence in every such state the slots from its counter on are
still the original ones and the slots below its counter already hold the
values they have on return. -/
theorem output_frame (P : Platform) (G W : Nat) (src : List Nat)
    (hashes lines : Nat → Nat) (limit : Nat) (hG : 1 ≤ G) (hW : 1 ≤ W)
    (hlimit : limit < 4294967296) :
    ∃ r sf, winnowing P G W src hashes lines limit = .ok r
      ∧ scan P G W limit (visited src) (initial G W hashes lines) = .ok sf
      ∧ sf.out = r
      ∧ (∀ j, r.counter ≤ j → r.hashes j = hashes j ∧ r.lines j = lines j)
      ∧ (starts P G W limit (visited src) (initial G W hashes lines) ++ [sf]).head?
          = some (initial G W hashes lines)
      ∧ List.Chain' (fun a b : State => b.out = a.out ∨ Wrote a.out b.out)
          (starts P G W limit (visited src) (initial G W hashes lines) ++ [sf])
      ∧ ∀ s ∈ starts P G W limit (visited src) (initial G W hashes lines) ++ [sf],
          s.out.counter ≤ r.counter
          ∧ (∀ j, s.out.counter ≤ j → s.out.hashes j = hashes j ∧ s.out.lines j = lines j)
          ∧ (∀ i, i < s.out.counter →
              r.hashes i = s.out.hashes i ∧ r.lines i = s.out.lines i) := by
  obtain ⟨sf, hscan, hhead, hchain, hall⟩ := scan_writes P G W limit hG hW hlimit (visited src)
    (initial G W hashes lines) [] [] (pending_malloc G hG) (pending_malloc W hW) (Or.inr rfl)
  have hwin : winnowing P G W src hashes lines limit = .ok sf.out := by
    have := hscan
    simp only [visited] at this
    simp only [winnowing, this]
  have hsf := (hall sf (List.mem_append_right _ (List.mem_singleton_self sf))).1
  refine ⟨sf.out, sf, hwin, hscan, rfl, fun j hj => hsf.2.2 j hj, hhead, hchain, ?_⟩
  intro s hs
  obtain ⟨h1, h2⟩ := hall s hs
  exact ⟨h2.1, fun j hj => h1.2.2 j hj, fun i hi => h2.2.1 i hi⟩

/-- C16 on a source of eight letters with the sizes 3 and 2. -/
theorem output_frame_witness :
    (1 ≤ 3 ∧ 1 ≤ 2 ∧ 5 < 4294967296) ∧
    ∃ r sf, winnowing standard 3 2 [97, 98, 99, 100, 101, 102, 103, 104]
        (fun _ => 7) (fun _ => 9) 5 = .ok r
      ∧ scan standard 3 2 5 (visited [97, 98, 99, 100, 101, 102, 103, 104])
          (initial 3 2 (fun _ => 7) (fun _ => 9)) = .ok sf
      ∧ sf.out = r
      ∧ (∀ j, r.counter ≤ j → r.hashes j = (fun _ => 7) j ∧ r.lines j = (fun _ => 9) j)
      ∧ (starts standard 3 2 5 (visited [97, 98, 99, 100, 101, 102, 103, 104])
          (initial 3 2 (fun _ => 7) (fun _ => 9)) ++ [sf]).head?
          = some (initial 3 2 (fun _ => 7) (fun _ => 9))
      ∧ List.Chain' (fun a b : State => b.out = a.out ∨ Wrote a.out b.out)
          (starts standard 3 2 5 (visited [97, 98, 99, 100, 101, 102, 103, 104])
            (initial 3 2 (fun _ => 7) (fun _ => 9)) ++ [sf])
      ∧ ∀ s ∈ starts standard 3 2 5 (visited [97, 98, 99, 100, 101, 102, 103, 104])
            (initial 3 2 (fun _ => 7) (fun _ => 9)) ++ [sf],
          s.out.counter ≤ r.counter
          ∧ (∀ j, s.out.counter ≤ j →
              s.out.hashes j = (fun _ => 7) j ∧ s.out.lines j = (fun _ => 9) j)
          ∧ (∀ i, i < s.out.counter →
              r.hashes i = s.out.hashes i ∧ r.lines i = s.out.lines i) :=
  ⟨by decide, output_frame standard 3 2 [97, 98, 99, 100, 101, 102, 103, 104]
    (fun _ => 7) (fun _ => 9) 5 (by decide) (by decide) (by decide)⟩

end Winnowing
